import Mathlib

/-!
Verification development for the ocm-sbom repository.

The first part embeds the CycloneDX data model subset manipulated by the
hierarchical merge (converter merge source) and the merge algorithm itself
(CycloneDXMerge / HierarchicalMerge).  The second part embeds the graph
orchestrator (processAllComponents in converter/convert_impl.go).  Go maps
are modelled as total functions or as association lists in insertion
order; Go strings are Lean strings; fallible Go functions return Except.
-/

set_option maxHeartbeats 1000000

namespace OcmSbom

/-- Component models the subset of the cyclonedx-go Component struct that the
merge reads or writes: type, group, name, version, bom-ref and the nested
sub-component list.  The nested list is optional, matching the Go pointer. -/
inductive Component where
  | mk (ctype group name version bomRef : String)
       (components : Option (List Component))

def Component.ctype : Component → String
  | .mk t _ _ _ _ _ => t

def Component.group : Component → String
  | .mk _ g _ _ _ _ => g

def Component.name : Component → String
  | .mk _ _ n _ _ _ => n

def Component.version : Component → String
  | .mk _ _ _ v _ _ => v

def Component.bomRef : Component → String
  | .mk _ _ _ _ r _ => r

def Component.components : Component → Option (List Component)
  | .mk _ _ _ _ _ cs => cs

/-- Service models a cyclonedx-go Service: the merge only touches its bom-ref. -/
structure Service where
  bomRef : String
  name : String
  deriving DecidableEq, Repr

/-- Dependency models a cyclonedx-go Dependency entry: a ref together with an
optional list of refs it depends on. -/
structure Dependency where
  ref : String
  dependencies : Option (List String)
  deriving DecidableEq, Repr

/-- Composition models a cyclonedx-go Composition: assemblies and dependencies
are lists of bom references (strings). -/
structure Composition where
  assemblies : Option (List String)
  dependencies : Option (List String)
  deriving DecidableEq, Repr

/-- Affects models one affected-target entry of a vulnerability. -/
structure Affects where
  ref : String
  deriving DecidableEq, Repr

/-- Vulnerability models a cyclonedx-go Vulnerability: its own bom-ref and the
affects list. -/
structure Vulnerability where
  bomRef : String
  affects : Option (List Affects)
  deriving DecidableEq, Repr

/-- ExternalReference is opaque to the merge; it is copied without rewriting. -/
structure ExternalReference where
  url : String
  deriving DecidableEq, Repr

/-- ToolsChoice models cyclonedx-go ToolsChoice: optional component and service
lists describing the tools that produced a document. -/
structure ToolsChoice where
  components : Option (List Component)
  services : Option (List Service)

/-- Metadata models the BOM metadata: the root component and the tools. -/
structure Metadata where
  component : Option Component
  tools : Option ToolsChoice

/-- OrganizationalEntity models a declaration target organization. -/
structure OrganizationalEntity where
  bomRef : String
  name : String
  deriving DecidableEq, Repr

/-- Conformance models the conformance block of an attestation map entry. -/
structure Conformance where
  mitigationStrategies : Option (List String)
  deriving DecidableEq, Repr

/-- AttestationMap models one map entry of an attestation. -/
structure AttestationMap where
  requirement : String
  claims : Option (List String)
  counterClaims : Option (List String)
  conformance : Option Conformance
  deriving DecidableEq, Repr

/-- Attestation models a declarations attestation. -/
structure Attestation where
  assessor : String
  map : Option (List AttestationMap)
  deriving DecidableEq, Repr

/-- Assessor models a declarations assessor. -/
structure Assessor where
  bomRef : String
  deriving DecidableEq, Repr

/-- Claim models a declarations claim. -/
structure Claim where
  bomRef : String
  target : String
  evidence : Option (List String)
  counterEvidence : Option (List String)
  deriving DecidableEq, Repr

/-- DeclarationEvidence models a declarations evidence entry. -/
structure DeclarationEvidence where
  bomRef : String
  deriving DecidableEq, Repr

/-- Targets models the declarations target group. -/
structure Targets where
  organizations : Option (List OrganizationalEntity)
  components : Option (List Component)
  services : Option (List Service)

/-- Declarations models the BOM declarations block. -/
structure Declarations where
  assessors : Option (List Assessor)
  attestations : Option (List Attestation)
  claims : Option (List Claim)
  evidence : Option (List DeclarationEvidence)
  targets : Option Targets

/-- StandardLevel models a level inside a standard definition. -/
structure StandardLevel where
  bomRef : String
  requirements : Option (List String)
  deriving DecidableEq, Repr

/-- StandardRequirement models a requirement inside a standard definition. -/
structure StandardRequirement where
  bomRef : String
  deriving DecidableEq, Repr

/-- StandardDefinition models a standard with its requirements and levels. -/
structure StandardDefinition where
  bomRef : String
  requirements : Option (List StandardRequirement)
  levels : Option (List StandardLevel)
  deriving DecidableEq, Repr

/-- Definitions models the BOM definitions block. -/
structure Definitions where
  standards : Option (List StandardDefinition)
  deriving DecidableEq

/-- BOM models the subset of cyclonedx-go BOM read or written by the merge. -/
structure BOM where
  serialNumber : String
  version : Nat
  metadata : Option Metadata
  components : Option (List Component)
  services : Option (List Service)
  externalReferences : Option (List ExternalReference)
  dependencies : Option (List Dependency)
  compositions : Option (List Composition)
  vulnerabilities : Option (List Vulnerability)
  declarations : Option Declarations
  definitions : Option Definitions

/-- MergeError models the two error values the merge can produce: the missing
name or version check in CycloneDXMerge, and the missing metadata component
check in HierarchicalMerge which records the offending document serial. -/
inductive MergeError where
  | missingSubjectIdentity
  | missingMetadataComponent (serial : String)
  deriving DecidableEq, Repr

/-- componentBOMRefNamespace mirrors the Go helper of the same name: the
namespace of a component is group.name@version, or name@version when the
group is empty; a nil component gives the empty namespace. -/
def componentBOMRefNamespace : Option Component → String
  | none => ""
  | some c =>
    if c.group ≠ "" then c.group ++ "." ++ c.name ++ "@" ++ c.version
    else c.name ++ "@" ++ c.version

/-- nsOf is the namespace of a present component. -/
def nsOf (c : Component) : String := componentBOMRefNamespace (some c)

/-- namespacedBOMRefWithNamespace mirrors the Go helper: an empty ref stays
empty, an empty namespace leaves the ref unchanged, otherwise the namespace
is prepended with a colon separator. -/
def namespacedBOMRefWithNamespace (ns ref : String) : String :=
  if ref = "" then ""
  else if ns = "" then ref
  else ns ++ ":" ++ ref

/-- namespacedBOMRef mirrors the Go helper that derives the namespace from a
component before prefixing. -/
def namespacedBOMRef (c : Option Component) (ref : String) : String :=
  if ref = "" then ""
  else namespacedBOMRefWithNamespace (componentBOMRefNamespace c) ref

mutual

/-- mapRefsC rewrites the bom-ref of a component and of every component in its
subtree with the given function, leaving all other fields unchanged.  It is
the structural-recursion rendering of the stack-based traversal in the Go
namespaceComponentBOMRefs, which pops each node exactly once and rewrites its
bom-ref. -/
def mapRefsC (f : String → String) : Component → Component
  | .mk t g n v r cs =>
    .mk t g n v (f r)
      (match cs with
       | none => none
       | some l => some (mapRefsL f l))

/-- mapRefsL rewrites every component of a list with mapRefsC. -/
def mapRefsL (f : String → String) : List Component → List Component
  | [] => []
  | c :: cs => mapRefsC f c :: mapRefsL f cs

end

/-- namespaceComponentBOMRefs mirrors the Go function: with an empty namespace
the component is left untouched, otherwise every bom-ref in the subtree is
rewritten once through namespacedBOMRefWithNamespace. -/
def namespaceComponentBOMRefs (ns : String) (c : Component) : Component :=
  if ns = "" then c else mapRefsC (namespacedBOMRefWithNamespace ns) c

/-- namespaceDependencyBOMRefs mirrors the Go function: with an empty
namespace the list is untouched; otherwise each entry has its ref and every
element of its depends-on list rewritten. -/
def namespaceDependencyBOMRefs (ns : String) (deps : List Dependency) :
    List Dependency :=
  if ns = "" then deps
  else deps.map fun d =>
    { ref := namespacedBOMRefWithNamespace ns d.ref
      dependencies := d.dependencies.map (List.map (namespacedBOMRefWithNamespace ns)) }

/-- namespaceCompositions mirrors the Go function: every assembly and
dependency reference of every composition is rewritten. -/
def namespaceCompositions (ns : String) (cs : List Composition) :
    List Composition :=
  if ns = "" then cs
  else cs.map fun c =>
    { assemblies := c.assemblies.map (List.map (namespacedBOMRefWithNamespace ns))
      dependencies := c.dependencies.map (List.map (namespacedBOMRefWithNamespace ns)) }

/-- namespaceVulnerabilitiesRefs mirrors the Go function: each vulnerability
has its own bom-ref rewritten, and every affects entry has its target ref
replaced by the namespace string itself. -/
def namespaceVulnerabilitiesRefs (ns : String) (vs : List Vulnerability) :
    List Vulnerability :=
  if ns = "" then vs
  else vs.map fun v =>
    { bomRef := namespacedBOMRefWithNamespace ns v.bomRef
      affects := v.affects.map (List.map fun _ => { ref := ns }) }

/-- containsComponent mirrors the Go helper: membership by bom-ref equality. -/
def containsComponent (components : List Component) (target : Component) : Bool :=
  components.any fun comp => comp.bomRef == target.bomRef

/-- containsService mirrors the Go helper: membership by bom-ref equality. -/
def containsService (services : List Service) (target : Service) : Bool :=
  services.any fun svc => svc.bomRef == target.bomRef

/-- Component.withBOMRef replaces the bom-ref field only. -/
def Component.withBOMRef (r : String) : Component → Component
  | .mk t g n v _ cs => .mk t g n v r cs

/-- namespaceAssessors is the flat reflection rewrite of the Go
namespaceBOMRefs applied to an assessor list: only the bom-ref field of each
entry is rewritten, and only when the namespace is non-empty. -/
def namespaceAssessors (ns : String) (l : List Assessor) : List Assessor :=
  if ns = "" then l
  else l.map fun a => { bomRef := namespacedBOMRefWithNamespace ns a.bomRef }

/-- namespaceEvidenceList is the flat bom-ref rewrite for declaration
evidence entries. -/
def namespaceEvidenceList (ns : String) (l : List DeclarationEvidence) :
    List DeclarationEvidence :=
  if ns = "" then l
  else l.map fun e => { bomRef := namespacedBOMRefWithNamespace ns e.bomRef }

/-- namespaceTargetOrganizations is the flat bom-ref rewrite for declaration
target organizations. -/
def namespaceTargetOrganizations (ns : String) (l : List OrganizationalEntity) :
    List OrganizationalEntity :=
  if ns = "" then l
  else l.map fun o => { o with bomRef := namespacedBOMRefWithNamespace ns o.bomRef }

/-- namespaceFlatComponents is the flat reflection rewrite for a component
list: unlike the stack traversal it only touches the top-level bom-ref of
each entry, not the subtree. -/
def namespaceFlatComponents (ns : String) (l : List Component) : List Component :=
  if ns = "" then l
  else l.map fun c => c.withBOMRef (namespacedBOMRefWithNamespace ns c.bomRef)

/-- namespaceFlatServices is the flat bom-ref rewrite for a service list. -/
def namespaceFlatServices (ns : String) (l : List Service) : List Service :=
  if ns = "" then l
  else l.map fun s => { s with bomRef := namespacedBOMRefWithNamespace ns s.bomRef }

/-- namespaceStandards combines the rewrites the merge applies to the
definitions standards of one document: each standard bom-ref, each
requirement bom-ref, each level bom-ref and each level requirement
back-reference is rewritten with the document namespace. -/
def namespaceStandards (ns : String) (l : List StandardDefinition) :
    List StandardDefinition :=
  if ns = "" then l
  else l.map fun sd =>
    { bomRef := namespacedBOMRefWithNamespace ns sd.bomRef
      requirements := sd.requirements.map (List.map fun rq =>
        { bomRef := namespacedBOMRefWithNamespace ns rq.bomRef })
      levels := sd.levels.map (List.map fun lv =>
        { bomRef := namespacedBOMRefWithNamespace ns lv.bomRef
          requirements := lv.requirements.map
            (List.map (namespacedBOMRefWithNamespace ns)) }) }

/-- namespaceAttestations combines the rewrites the merge applies to the
attestations of one document: the assessor reference and the map entry
claims, counter-claims and requirement references.  The conformance
mitigation-strategy call in the source is a no-op: it passes a slice of
interface values to the reflection helper, whose per-item loop skips every
element of kind interface, so conformance blocks pass through unchanged. -/
def namespaceAttestations (ns : String) (l : List Attestation) :
    List Attestation :=
  if ns = "" then l
  else l.map fun att =>
    { assessor := namespacedBOMRefWithNamespace ns att.assessor
      map := att.map.map (List.map fun m =>
        { requirement := namespacedBOMRefWithNamespace ns m.requirement
          claims := m.claims.map (List.map (namespacedBOMRefWithNamespace ns))
          counterClaims := m.counterClaims.map
            (List.map (namespacedBOMRefWithNamespace ns))
          conformance := m.conformance }) }

/-- namespaceClaims combines the rewrites the merge applies to the claims of
one document: the claim bom-ref, the evidence and counter-evidence reference
lists, and the target reference. -/
def namespaceClaims (ns : String) (l : List Claim) : List Claim :=
  if ns = "" then l
  else l.map fun cl =>
    { bomRef := namespacedBOMRefWithNamespace ns cl.bomRef
      target := namespacedBOMRefWithNamespace ns cl.target
      evidence := cl.evidence.map (List.map (namespacedBOMRefWithNamespace ns))
      counterEvidence := cl.counterEvidence.map
        (List.map (namespacedBOMRefWithNamespace ns)) }

/-- MState carries the accumulating result of HierarchicalMerge across the
per-document loop, with one field per mutable result collection plus the
pending subject dependency refs. -/
structure MState where
  toolsComponents : Option (List Component)
  toolsServices : Option (List Service)
  components : List Component
  services : List Service
  externalReferences : List ExternalReference
  dependencies : List Dependency
  compositions : List Composition
  vulnerabilities : List Vulnerability
  assessors : List Assessor
  attestations : List Attestation
  claims : List Claim
  evidence : List DeclarationEvidence
  targetsOrganizations : List OrganizationalEntity
  targetsComponents : List Component
  targetsServices : List Service
  standards : List StandardDefinition
  subjectDeps : List String

/-- MState.init is the freshly initialized result of HierarchicalMerge: all
lists empty and the tools choice lists still nil. -/
def MState.init : MState :=
  { toolsComponents := none, toolsServices := none, components := [],
    services := [], externalReferences := [], dependencies := [],
    compositions := [], vulnerabilities := [], assessors := [],
    attestations := [], claims := [], evidence := [],
    targetsOrganizations := [], targetsComponents := [], targetsServices := [],
    standards := [], subjectDeps := [] }

/-- namespaceSubtreeOnly rewrites every descendant bom-ref of a component
while leaving its own top-level bom-ref unchanged, doing nothing with an
empty namespace.  It is the final value of a tool component appended by the
legacy block: that appended struct copy keeps its own bom-ref field, but its
nested component list is a pointer into the same backing array that the
second block's stack traversal rewrites in place, so by the end of the
document iteration its whole subtree carries the namespace. -/
def namespaceSubtreeOnly (ns : String) : Component → Component
  | .mk t g n v r cs =>
    .mk t g n v r
      (if ns = "" then cs
       else cs.map (mapRefsL (namespacedBOMRefWithNamespace ns)))

/-- mergeToolsComponents models the two consecutive tools-component blocks of
the per-document loop: the first appends the document tool components with
their top-level bom-refs unmodified (but, through the shared nested slice
backing, with their subtrees namespaced by the second block's in-place
traversal), and the second appends a fully namespaced copy of each tool
component whenever its namespaced bom-ref is not already present. -/
def mergeToolsComponents (ns : String) (acc : Option (List Component))
    (tc : Option (List Component)) : Option (List Component) :=
  match tc with
  | none => acc
  | some l =>
    if l.isEmpty then acc
    else
      let legacy := acc.getD [] ++ l.map (namespaceSubtreeOnly ns)
      some (l.foldl (fun r comp =>
        let comp2 := namespaceComponentBOMRefs ns comp
        if containsComponent r comp2 then r else r ++ [comp2]) legacy)

/-- mergeToolsServices models the tools-service block: each service bom-ref
is namespaced with the document root component and appended when not already
present. -/
def mergeToolsServices (root : Component) (acc : Option (List Service))
    (ts : Option (List Service)) : Option (List Service) :=
  match ts with
  | none => acc
  | some l =>
    if l.isEmpty then acc
    else
      some (l.foldl (fun r svc =>
        let svc2 : Service := { svc with bomRef := namespacedBOMRef (some root) svc.bomRef }
        if containsService r svc2 then r else r ++ [svc2]) (acc.getD []))

/-- absorbRoot appends the flat component list of a document onto its root
component as sub-components, as the merge does before namespacing. -/
def absorbRoot (root : Component) (b : BOM) : Component :=
  match root with
  | .mk t g n v r cs => .mk t g n v r (some (cs.getD [] ++ b.components.getD []))

/-- stepBom is the body of the per-document loop of HierarchicalMerge: it
validates the document root, merges tools, absorbs and namespaces the root
component, and namespaces and concatenates every remaining collection. -/
def stepBom (subject : Option Component) (st : MState) (bom : BOM) :
    Except MergeError MState :=
  match bom.metadata with
  | none => .error (.missingMetadataComponent
      (if bom.serialNumber = "" then "unknown" else bom.serialNumber))
  | some md =>
    match md.component with
    | none => .error (.missingMetadataComponent
        (if bom.serialNumber = "" then "unknown" else bom.serialNumber))
    | some root =>
      let ns := nsOf root
      let st :=
        if subject.isSome then
          match md.tools with
          | none => st
          | some tools =>
            { st with
              toolsComponents := mergeToolsComponents ns st.toolsComponents tools.components
              toolsServices := mergeToolsServices root st.toolsServices tools.services }
        else st
      let absorbed : Component := absorbRoot root bom
      let namespaced := namespaceComponentBOMRefs ns absorbed
      let topComp := if namespaced.bomRef = "" then namespaced.withBOMRef ns else namespaced
      let nsForVulns :=
        match subject with
        | some s => nsOf s
        | none => ns
      let st :=
        { st with
          subjectDeps := st.subjectDeps ++ [topComp.bomRef]
          components := st.components ++ [topComp]
          services := st.services ++ (bom.services.getD []).map
            (fun svc => { svc with bomRef := namespacedBOMRef (some root) svc.bomRef })
          externalReferences := st.externalReferences ++ bom.externalReferences.getD []
          dependencies := st.dependencies ++
            namespaceDependencyBOMRefs ns (bom.dependencies.getD [])
          compositions := st.compositions ++
            namespaceCompositions ns (bom.compositions.getD [])
          vulnerabilities := st.vulnerabilities ++
            namespaceVulnerabilitiesRefs nsForVulns (bom.vulnerabilities.getD [])
          standards := st.standards ++
            (match bom.definitions with
             | none => []
             | some defs => namespaceStandards ns (defs.standards.getD [])) }
      let st :=
        match bom.declarations with
        | none => st
        | some decl =>
          { st with
            assessors := st.assessors ++ namespaceAssessors ns (decl.assessors.getD [])
            attestations := st.attestations ++
              namespaceAttestations ns (decl.attestations.getD [])
            claims := st.claims ++ namespaceClaims ns (decl.claims.getD [])
            evidence := st.evidence ++ namespaceEvidenceList ns (decl.evidence.getD [])
            targetsOrganizations :=
              namespaceTargetOrganizations ns st.targetsOrganizations ++
                (decl.targets.bind (·.organizations)).getD []
            targetsComponents :=
              namespaceFlatComponents ns st.targetsComponents ++
                (decl.targets.bind (·.components)).getD []
            targetsServices :=
              namespaceFlatServices ns st.targetsServices ++
                (decl.targets.bind (·.services)).getD [] }
      .ok st

/-- processBoms folds stepBom over the input documents in order, aborting on
the first document that fails validation. -/
def processBoms (subject : Option Component) : List BOM → MState →
    Except MergeError MState
  | [], st => .ok st
  | b :: bs, st =>
    match stepBom subject st b with
    | .error e => .error e
    | .ok st2 => processBoms subject bs st2

/-- emptyToNone models the cleanup step: an empty accumulated list becomes
an absent collection, a non-empty one stays present. -/
def emptyToNone {α : Type} (l : List α) : Option (List α) :=
  if l.isEmpty then none else some l

/-- buildResult is the final result construction of HierarchicalMerge once
the per-document loop has finished: it appends the final subject dependency
entry and nulls out the cleaned-up collections. -/
def buildResult (subject : Option Component) (st : MState) : BOM :=
  let deps := st.dependencies ++
    (match subject with
     | some s => [{ ref := s.bomRef, dependencies := some st.subjectDeps }]
     | none => [])
  let toolsComponents :=
    match st.toolsComponents with
    | some l => if subject.isSome && l.isEmpty then none else some l
    | none => none
  { serialNumber := "", version := 0
    metadata := subject.map fun s =>
      { component := some s
        tools := some { components := toolsComponents, services := st.toolsServices } }
    components := emptyToNone st.components
    services := emptyToNone st.services
    externalReferences := emptyToNone st.externalReferences
    dependencies := emptyToNone deps
    compositions := emptyToNone st.compositions
    vulnerabilities := emptyToNone st.vulnerabilities
    declarations := some
      { assessors := some st.assessors
        attestations := some st.attestations
        claims := some st.claims
        evidence := some st.evidence
        targets := some
          { organizations := some st.targetsOrganizations
            components := some st.targetsComponents
            services := some st.targetsServices } }
    definitions := some { standards := some st.standards } }

/-- fixSubject fills an empty subject bom-ref with the subject namespace, as
HierarchicalMerge does before recording metadata. -/
def fixSubject (s : Component) : Component :=
  if s.bomRef = "" then s.withBOMRef (nsOf s) else s

/-- HierarchicalMerge mirrors the Go function of the same name: it fixes the
subject bom-ref, initializes the result, folds the per-document merge over
the inputs and builds the cleaned-up result. -/
def HierarchicalMerge (boms : List BOM) (bomSubject : Option Component) :
    Except MergeError BOM :=
  match processBoms (bomSubject.map fixSubject) boms MState.init with
  | .error e => .error e
  | .ok st => .ok (buildResult (bomSubject.map fixSubject) st)

/-- CycloneDxMergeOptions mirrors the Go options struct for CycloneDXMerge. -/
structure CycloneDxMergeOptions where
  boms : List BOM
  group : String
  name : String
  version : String

/-- subjectFor is the synthetic application subject component CycloneDXMerge
builds from its options, before the bom-ref fixup. -/
def subjectFor (options : CycloneDxMergeOptions) : Component :=
  .mk "application" options.group options.name options.version "" none

/-- subjectFixed is the subject component after HierarchicalMerge has filled
its empty bom-ref with its own namespace. -/
def subjectFixed (options : CycloneDxMergeOptions) : Component :=
  (subjectFor options).withBOMRef (nsOf (subjectFor options))

/-- CycloneDXMerge mirrors the Go function: it requires a non-empty subject
name and version, builds the synthetic application subject component and
delegates to HierarchicalMerge, then finalizes the version and metadata. -/
def CycloneDXMerge (options : CycloneDxMergeOptions) : Except MergeError BOM :=
  if options.name = "" ∨ options.version = "" then
    .error .missingSubjectIdentity
  else
    match HierarchicalMerge options.boms (some (subjectFor options)) with
    | .error e => .error e
    | .ok outputBom =>
      .ok { outputBom with
            version := 1
            metadata :=
              match outputBom.metadata with
              | none => some { component := none, tools := none }
              | some m => some m }

/-- OrchNode is what the orchestrator extracts from a fetched component
version: the path of the resource-only SBOM recorded for the node (empty
string when ProcessComponent produced none) and the referenced child
components as name and version pairs. -/
structure OrchNode where
  leaf : String
  refs : List (String × String)

/-- nodeId mirrors the id helper of processAllComponents: name and version
joined with a colon. -/
def nodeId (name version : String) : String := name ++ ":" ++ version

/-- fupd is a pointwise update of a function-modelled Go map. -/
def fupd {α : Type} (f : String → α) (k : String) (v : α) : String → α :=
  fun x => if x = k then v else f x

/-- Graph is the bookkeeping state built by the discovery phase of
processAllComponents: the visited set, the child and parent relations, the
per-node resource SBOM paths and the insertion-ordered node list. -/
structure Graph where
  visited : List String
  childrenOf : String → List String
  parentsOf : String → List String
  resourceSBOM : String → String
  allNodes : List String

/-- Graph.init is the empty discovery state. -/
def Graph.init : Graph :=
  { visited := [], childrenOf := fun _ => [], parentsOf := fun _ => [],
    resourceSBOM := fun _ => "", allNodes := [] }

/-- bfsChild records one reference edge during discovery: the child id is
appended to the parent child list (duplicates kept, as in the Go append),
the parent is added to the child parent set, and the child is enqueued when
not yet visited. -/
def bfsChild (currID : String) (gq : Graph × List (String × String))
    (r : String × String) : Graph × List (String × String) :=
  let g := gq.1
  let childID := nodeId r.1 r.2
  let g :=
    { g with
      childrenOf := fupd g.childrenOf currID (g.childrenOf currID ++ [childID])
      parentsOf :=
        if (g.parentsOf childID).contains currID then g.parentsOf
        else fupd g.parentsOf childID (g.parentsOf childID ++ [currID]) }
  if g.visited.contains childID then (g, gq.2) else (g, gq.2 ++ [r])

/-- bfs is the discovery loop of processAllComponents: a breadth-first
traversal from the root that visits each node id at most once, records the
resource SBOM path and the parent and child relations, and treats a failed
component fetch as a dead end.  The fuel argument bounds loop iterations;
any fuel large enough to drain the queue reproduces the Go loop, and every
theorem below quantifies over the fuel. -/
def bfs (repo : String × String → Option OrchNode) :
    Nat → List (String × String) → Graph → Graph
  | 0, _, g => g
  | _ + 1, [], g => g
  | fuel + 1, curr :: queue, g =>
    let currID := nodeId curr.1 curr.2
    if g.visited.contains currID then bfs repo fuel queue g
    else
      let g := { g with visited := g.visited ++ [currID] }
      match repo curr with
      | none => bfs repo fuel queue g
      | some desc =>
        let g :=
          { g with
            resourceSBOM :=
              if desc.leaf ≠ "" then fupd g.resourceSBOM currID desc.leaf
              else g.resourceSBOM
            allNodes := g.allNodes ++ [currID] }
        let gq := desc.refs.foldl (bfsChild currID) (g, queue)
        bfs repo fuel gq.2 gq.1

/-- lookupA is association list lookup, modelling a Go map read that
distinguishes present from absent keys. -/
def lookupA (l : List (String × String)) (k : String) : Option String :=
  (l.find? fun p => p.1 == k).map (·.2)

/-- St2 is the state of the bottom-up merge phase: the processed nodes in
finalization order, the per-node merged result paths in insertion order, the
pending-children counters, and a log of the input files gathered for each
processed node. -/
structure St2 where
  processed : List String
  resultPath : List (String × String)
  remaining : String → Int
  filesLog : List (String × List String)

/-- gatherFiles collects the merge inputs of a node: its own resource SBOM
path when present, then each child result path already recorded. -/
def gatherFiles (g : Graph) (st : St2) (nid : String) : List String :=
  (if g.resourceSBOM nid ≠ "" then [g.resourceSBOM nid] else []) ++
    ((g.childrenOf nid).map fun cid => (lookupA st.resultPath cid).getD "").filter
      (· ≠ "")

/-- decStep decrements one parent pending counter and enqueues the parent
exactly when its counter reaches zero and it is not yet processed. -/
def decStep (stn : St2 × List String) (p : String) : St2 × List String :=
  let st := stn.1
  let st := { st with remaining := fupd st.remaining p (st.remaining p - 1) }
  if st.remaining p == 0 && !st.processed.contains p then (st, stn.2 ++ [p])
  else (st, stn.2)

/-- propagate decrements each parent pending counter after a node completes
and enqueues each parent whose counter reaches zero and is not yet
processed. -/
def propagate (g : Graph) (nid : String) (stn : St2 × List String) :
    St2 × List String :=
  (g.parentsOf nid).foldl decStep stn

/-- stepNode processes one ready node of a wave: skip when already
processed; with no input files mark processed and propagate; otherwise take
the first file, invoke the external merger when there are several (keeping
the first file when the merger fails), record the result and propagate.  The
merge oracle models the external merger call keyed by the node id and the
input files, returning none on failure. -/
def stepNode (g : Graph) (merge : String → List String → Option String)
    (stn : St2 × List String) (nid : String) : St2 × List String :=
  let st := stn.1
  if st.processed.contains nid then stn
  else
    let files := gatherFiles g st nid
    match files with
    | [] =>
      let st := { st with processed := st.processed ++ [nid]
                          filesLog := st.filesLog ++ [(nid, [])] }
      propagate g nid (st, stn.2)
    | f0 :: rest =>
      let finalPath :=
        if rest.isEmpty then f0
        else match merge nid files with
             | some out => out
             | none => f0
      let st :=
        { st with
          resultPath := st.resultPath ++ [(nid, finalPath)]
          processed := st.processed ++ [nid]
          filesLog := st.filesLog ++ [(nid, files)] }
      propagate g nid (st, stn.2)

/-- wave processes one ready batch, accumulating the next batch. -/
def wave (g : Graph) (merge : String → List String → Option String)
    (batch : List String) (st : St2) : St2 × List String :=
  batch.foldl (stepNode g merge) (st, [])

/-- waves is the outer loop of the bottom-up phase: it repeats waves while
some node is unprocessed and the ready batch is non-empty.  The fuel bounds
the number of waves; every wave that yields a non-empty next batch processes
at least one node, so any fuel above the node count reproduces the Go
loop, and the safety theorems below hold for every fuel. -/
def waves (g : Graph) (merge : String → List String → Option String) :
    Nat → St2 → List String → St2
  | 0, st, _ => st
  | fuel + 1, st, batch =>
    if st.processed.length < g.allNodes.length ∧ batch ≠ [] then
      let stn := wave g merge batch st
      waves g merge fuel stn.1 stn.2
    else st

/-- St2.init builds the initial bottom-up state from the discovery result:
counters hold the child counts of discovered nodes and zero elsewhere. -/
def St2.init (g : Graph) : St2 :=
  { processed := [], resultPath := []
    remaining := fun nid =>
      if g.allNodes.contains nid then ((g.childrenOf nid).length : Int) else 0
    filesLog := [] }

/-- runPhase2 seeds the ready queue with the discovered nodes whose counter
is already zero and drains the waves. -/
def runPhase2 (g : Graph) (merge : String → List String → Option String) : St2 :=
  let st := St2.init g
  let batch := g.allNodes.filter fun nid => st.remaining nid == 0
  waves g merge (g.allNodes.length + 1) st batch

/-- selectResult is the final step of processAllComponents: the root result
path when recorded, otherwise the first recorded result path of any node
(the Go fallback loop over the result map), otherwise no output. -/
def selectResult (st : St2) (rootID : String) : Option (List String) :=
  let rootMerged := (lookupA st.resultPath rootID).getD ""
  let rootMerged :=
    if rootMerged = "" then ((st.resultPath.head?.map (·.2)).getD "")
    else rootMerged
  if rootMerged = "" then none else some [rootMerged]

/-- processAllComponents mirrors the Go function: discovery, bottom-up
merging and root result selection.  It also returns the discovery graph and
the final merge state so that theorems can inspect them. -/
def processAllComponents (repo : String × String → Option OrchNode)
    (merge : String → List String → Option String)
    (componentName componentVersion : String) (bfsFuel : Nat) :
    Option (List String) × Graph × St2 :=
  let g := bfs repo bfsFuel [(componentName, componentVersion)] Graph.init
  if g.allNodes.isEmpty then (none, g, St2.init g)
  else
    (selectResult (runPhase2 g merge) (nodeId componentName componentVersion),
     g, runPhase2 g merge)

/-- rootOf extracts the root metadata component of a document, when present. -/
def rootOf (b : BOM) : Option Component :=
  b.metadata.bind Metadata.component

/-- defaultComponent is a placeholder used only under hypotheses that rule
it out. -/
def defaultComponent : Component := .mk "" "" "" "" "" none

/-- theRoot is the root metadata component of a document, defaulting to the
placeholder. -/
def theRoot (b : BOM) : Component := (rootOf b).getD defaultComponent

/-- docNs is the namespace the merge derives for one input document from its
root metadata component. -/
def docNs (b : BOM) : String := nsOf (theRoot b)

/-- docTop is the top-level component the merge appends to the result for
one input document: the absorbed root, namespaced, with the namespace
itself as bom-ref when the original ref was empty. -/
def docTop (b : BOM) : Component :=
  let ns := docNs b
  let c := namespaceComponentBOMRefs ns (absorbRoot (theRoot b) b)
  if c.bomRef = "" then c.withBOMRef ns else c

/-- serialOf is the identifying serial the merge reports for a document
without a root metadata component. -/
def serialOf (b : BOM) : String :=
  if b.serialNumber = "" then "unknown" else b.serialNumber

/-- depContribution is the namespaced dependency list one document adds to
the result. -/
def depContribution (b : BOM) : List Dependency :=
  namespaceDependencyBOMRefs (docNs b) (b.dependencies.getD [])

/-- vulnContribution is the namespaced vulnerability list one document adds
to the result, given the namespace chosen for vulnerabilities. -/
def vulnContribution (nsV : String) (b : BOM) : List Vulnerability :=
  namespaceVulnerabilitiesRefs nsV (b.vulnerabilities.getD [])

/-- svcContribution is the namespaced service list one document adds to the
result. -/
def svcContribution (b : BOM) : List Service :=
  (b.services.getD []).map fun svc =>
    { svc with bomRef := namespacedBOMRef (some (theRoot b)) svc.bomRef }

/-- compContribution is the namespaced composition list one document adds to
the result. -/
def compContribution (b : BOM) : List Composition :=
  namespaceCompositions (docNs b) (b.compositions.getD [])

/-- stdContribution is the namespaced standards list one document adds to
the result. -/
def stdContribution (b : BOM) : List StandardDefinition :=
  match b.definitions with
  | none => []
  | some defs => namespaceStandards (docNs b) (defs.standards.getD [])

/-- toolsOf extracts the declared tools of a document, when present. -/
def toolsOf (b : BOM) : Option ToolsChoice :=
  b.metadata.bind Metadata.tools

/-- toolsComponentsFold folds the per-document tool-component union from a
given accumulator. -/
def toolsComponentsFold (boms : List BOM) (acc : Option (List Component)) :
    Option (List Component) :=
  boms.foldl
    (fun acc b =>
      match toolsOf b with
      | none => acc
      | some tools => mergeToolsComponents (docNs b) acc tools.components)
    acc

/-- toolsComponentsSpec states the tool-component union the merge actually
performs, per document in input order: the document tool components are
appended verbatim, then a namespaced copy of each is appended when its
namespaced bom-ref is not already present.  It is the specification the
amended tools claim refers to. -/
def toolsComponentsSpec (boms : List BOM) : Option (List Component) :=
  toolsComponentsFold boms none

/-- toolsServicesFold folds the per-document tool-service union from a given
accumulator. -/
def toolsServicesFold (boms : List BOM) (acc : Option (List Service)) :
    Option (List Service) :=
  boms.foldl
    (fun acc b =>
      match toolsOf b with
      | none => acc
      | some tools => mergeToolsServices (theRoot b) acc tools.services)
    acc

/-- toolsServicesSpec states the tool-service union the merge actually
performs, per document in input order: each service bom-ref is namespaced
with the document root and appended when not already present. -/
def toolsServicesSpec (boms : List BOM) : Option (List Service) :=
  toolsServicesFold boms none

/-- topRefVal is the top-level bom-ref the merge produces from a namespace
and an original root bom-ref. -/
def topRefVal (ns r : String) : String :=
  if r = "" then ns else ns ++ ":" ++ r

/-- cnt is the number of children of a node not yet processed. -/
def cnt (g : Graph) (processed : List String) (p : String) : Int :=
  ((g.childrenOf p).filter fun c => !processed.contains c).length

/-- PostOrd states that a finalization log is in strict post-order: whenever
a node appears in the log, every one of its children appears strictly
earlier. -/
def PostOrd (g : Graph) (l : List String) : Prop :=
  ∀ pre n post, l = pre ++ n :: post → ∀ c ∈ g.childrenOf n, c ∈ pre

/-- GraphOK collects the structural facts the discovery phase establishes
about its output: child lists of discovered nodes have no duplicates,
parent sets have no duplicates, the parent and child relations are converse
to each other, and parents of discovered nodes are discovered. -/
def GraphOK (g : Graph) : Prop :=
  (∀ p ∈ g.allNodes, (g.childrenOf p).Nodup) ∧
  (∀ c ∈ g.allNodes, (g.parentsOf c).Nodup) ∧
  (∀ p ∈ g.allNodes, ∀ c ∈ g.childrenOf p, p ∈ g.parentsOf c) ∧
  (∀ c ∈ g.allNodes, ∀ p ∈ g.parentsOf c, c ∈ g.childrenOf p) ∧
  (∀ c ∈ g.allNodes, ∀ p ∈ g.parentsOf c, p ∈ g.allNodes)

instance graphOKDecidable (g : Graph) : Decidable (GraphOK g) := by
  unfold GraphOK
  infer_instance

/-- Inv is the wave-loop invariant of the bottom-up phase: the finalization
log has no duplicates and is in strict post-order, every discovered node
counter equals its unprocessed-children count, and every pending ready node
is discovered with all children already processed. -/
def Inv (g : Graph) (st : St2) (pending : List String) : Prop :=
  st.processed.Nodup ∧
  PostOrd g st.processed ∧
  (∀ p ∈ g.allNodes, st.remaining p = cnt g st.processed p) ∧
  (∀ n ∈ pending, n ∈ g.allNodes ∧ ∀ c ∈ g.childrenOf n, c ∈ st.processed)

/-- Inv2 is the completeness invariant of the bottom-up phase: every
finalized node was discovered, and every discovered unfinalized node whose
counter has reached zero is waiting in the pending list. -/
def Inv2 (g : Graph) (st : St2) (pending : List String) : Prop :=
  (∀ n ∈ st.processed, n ∈ g.allNodes) ∧
  (∀ n ∈ g.allNodes, n ∉ st.processed → st.remaining n = 0 → n ∈ pending)

/-- cleanupTools is the tools-component cleanup applied by buildResult when a
subject is present: an empty accumulated list becomes absent. -/
def cleanupTools (o : Option (List Component)) : Option (List Component) :=
  match o with
  | some l => if l.isEmpty then none else some l
  | none => none

/-- emptyBOM is a document with every field absent, used as concrete input. -/
def emptyBOM : BOM :=
  { serialNumber := "", version := 0, metadata := none, components := none,
    services := none, externalReferences := none, dependencies := none,
    compositions := none, vulnerabilities := none, declarations := none,
    definitions := none }

/-- mkDoc is a document carrying only a root metadata component. -/
def mkDoc (root : Component) : BOM :=
  { emptyBOM with metadata := some { component := some root, tools := none } }

/-- libRoot is a concrete root component named lib at version 1.0. -/
def libRoot : Component := .mk "application" "" "lib" "1.0" "" none

/-- c2doc is a document whose root is libRoot and which carries one
vulnerability with one affected target. -/
def c2doc : BOM :=
  { mkDoc libRoot with
    vulnerabilities := some [{ bomRef := "v", affects := some [{ ref := "comp-x" }] }] }

/-- c2opts merges c2doc under the subject app at version 1.0. -/
def c2opts : CycloneDxMergeOptions :=
  { boms := [c2doc], group := "", name := "app", version := "1.0" }

/-- c3doc is a document whose root is libRoot and which declares one tool
component with a non-empty bom-ref and one nested sub-component, plus one
tool service. -/
def c3doc : BOM :=
  { emptyBOM with
    metadata := some
      { component := some libRoot
        tools := some
          { components := some [.mk "application" "" "tool" "9" "t1"
              (some [.mk "library" "" "nested" "1" "n1" none])]
            services := some [{ bomRef := "s1", name := "svc" }] } } }

/-- c3opts merges c3doc under the subject app at version 1.0. -/
def c3opts : CycloneDxMergeOptions :=
  { boms := [c3doc], group := "", name := "app", version := "1.0" }

/-- c4docA has root group a, name b, version 1. -/
def c4docA : BOM := mkDoc (.mk "application" "a" "b" "1" "" none)

/-- c4docB has root group empty, name a.b, version 1: a different identity
tuple with the same derived namespace as c4docA. -/
def c4docB : BOM := mkDoc (.mk "application" "" "a.b" "1" "" none)

/-- c4opts merges c4docA and c4docB under the subject app at version 1.0. -/
def c4opts : CycloneDxMergeOptions :=
  { boms := [c4docA, c4docB], group := "", name := "app", version := "1.0" }

/-- c6opts merges a valid document followed by a document without metadata. -/
def c6opts : CycloneDxMergeOptions :=
  { boms := [mkDoc libRoot, emptyBOM], group := "", name := "app", version := "1.0" }

/-- c7opts merges one plain document carrying nothing but its root. -/
def c7opts : CycloneDxMergeOptions :=
  { boms := [mkDoc libRoot], group := "", name := "app", version := "1.0" }

/-- c8doc carries a root with its own bom-ref and one nested sub-component,
plus one flat top-level component. -/
def c8doc : BOM :=
  { mkDoc (.mk "application" "" "lib" "1.0" "root-ref"
      (some [.mk "library" "" "x" "2" "xr" none])) with
    components := some [.mk "library" "" "y" "3" "yr" none] }

/-- lib2Root is a root component named lib at version 2.0. -/
def lib2Root : Component := .mk "application" "" "lib" "2.0" "" none

/-- c4wopts merges two documents with distinct, colon-free namespaces. -/
def c4wopts : CycloneDxMergeOptions :=
  { boms := [mkDoc libRoot, mkDoc lib2Root], group := "", name := "app",
    version := "1.0" }

/-- c8root is the root component of c8doc. -/
def c8root : Component :=
  .mk "application" "" "lib" "1.0" "root-ref"
    (some [.mk "library" "" "x" "2" "xr" none])

/-- c8opts merges c8doc under a subject equal to the identity of its own
root component. -/
def c8opts : CycloneDxMergeOptions :=
  { boms := [c8doc], group := "", name := "lib", version := "1.0" }

/-- c10opts is a merge request with an empty document list. -/
def c10opts : CycloneDxMergeOptions :=
  { boms := [], group := "", name := "app", version := "1.0" }

/-- exMerge is a merge oracle that always fails, degrading to the first
input file. -/
def exMerge : String → List String → Option String := fun _ _ => none

/-- exRepo is a component repository whose reference graph is cyclic below
the root: R references A and C, A references B, B references A (a cycle),
and C is a leaf with a resource SBOM at path pC. -/
def exRepo : String × String → Option OrchNode := fun k =>
  if k = ("R", "1") then some { leaf := "", refs := [("A", "1"), ("C", "1")] }
  else if k = ("A", "1") then some { leaf := "", refs := [("B", "1")] }
  else if k = ("B", "1") then some { leaf := "", refs := [("A", "1")] }
  else if k = ("C", "1") then some { leaf := "pC", refs := [] }
  else none

/-- diaRepo is the diamond repository: A references B and C, B and C both
reference D, and every node has a resource SBOM. -/
def diaRepo : String × String → Option OrchNode := fun k =>
  if k = ("A", "1") then some { leaf := "pA", refs := [("B", "1"), ("C", "1")] }
  else if k = ("B", "1") then some { leaf := "pB", refs := [("D", "1")] }
  else if k = ("C", "1") then some { leaf := "pC", refs := [("D", "1")] }
  else if k = ("D", "1") then some { leaf := "pD", refs := [] }
  else none

/-- diaMerge is a deterministic merge oracle for the diamond run. -/
def diaMerge : String → List String → Option String :=
  fun nid _ => some ("m-" ++ nid)

/-- diaG is the graph the discovery phase builds from the diamond repo. -/
def diaG : Graph := bfs diaRepo 8 [("A", "1")] Graph.init

/-- diaRank is a topological rank for the diamond graph. -/
def diaRank : String → Nat := fun nid =>
  if nid = nodeId "A" "1" then 3
  else if nid = nodeId "B" "1" then 1
  else if nid = nodeId "C" "1" then 1
  else 0

theorem processBoms_fields (subject : Option Component) (boms : List BOM) :
    ∀ (st st' : MState), processBoms subject boms st = .ok st' →
      st'.components = st.components ++ boms.map docTop ∧
      st'.subjectDeps = st.subjectDeps ++ boms.map (fun b => (docTop b).bomRef) ∧
      st'.dependencies = st.dependencies ++ boms.flatMap depContribution ∧
      st'.vulnerabilities = st.vulnerabilities ++ boms.flatMap
        (fun b => vulnContribution
          (match subject with | some s => nsOf s | none => docNs b) b) ∧
      st'.services = st.services ++ boms.flatMap svcContribution ∧
      st'.compositions = st.compositions ++ boms.flatMap compContribution ∧
      st'.standards = st.standards ++ boms.flatMap stdContribution ∧
      st'.toolsComponents =
        (if subject.isSome then toolsComponentsFold boms st.toolsComponents
         else st.toolsComponents) ∧
      st'.toolsServices =
        (if subject.isSome then toolsServicesFold boms st.toolsServices
         else st.toolsServices) := by
  induction boms with
  | nil =>
    intro st st' h
    simp only [processBoms] at h
    cases h
    simp [toolsComponentsFold, toolsServicesFold]
  | cons b bs IH =>
    intro st st' h
    rw [processBoms] at h
    cases hs : stepBom subject st b with
    | error e => rw [hs] at h; cases h
    | ok st2 =>
      rw [hs] at h
      have ih := IH st2 st' h
      cases hmd : b.metadata with
      | none => simp [stepBom, hmd] at hs
      | some md =>
        cases hc : md.component with
        | none => simp [stepBom, hmd, hc] at hs
        | some root =>
          have hroot : theRoot b = root := by
            simp [theRoot, rootOf, hmd, hc]
          have htools : toolsOf b = md.tools := by
            simp [toolsOf, hmd]
          simp only [stepBom, hmd, hc] at hs
          cases hs
          obtain ⟨h1, h2, h3, h4, h5, h6, h7, h8, h9⟩ := ih
          cases subject <;> cases hdecl : b.declarations <;> cases htc : md.tools <;>
            simp [h1, h2, h3, h4, h5, h6, h7, h8, h9, docTop, docNs, theRoot, rootOf,
                  depContribution, vulnContribution, svcContribution, compContribution,
                  stdContribution, toolsComponentsFold, toolsServicesFold, toolsOf,
                  hmd, hc, hdecl, htc]

theorem processBoms_decl_fields (subject : Option Component) (boms : List BOM)
    (hdecl : ∀ b ∈ boms, b.declarations = none) :
    ∀ (st st' : MState), processBoms subject boms st = .ok st' →
      st'.assessors = st.assessors ∧ st'.attestations = st.attestations ∧
      st'.claims = st.claims ∧ st'.evidence = st.evidence ∧
      st'.targetsOrganizations = st.targetsOrganizations ∧
      st'.targetsComponents = st.targetsComponents ∧
      st'.targetsServices = st.targetsServices := by
  induction boms with
  | nil =>
    intro st st' h
    simp only [processBoms] at h
    cases h
    exact ⟨rfl, rfl, rfl, rfl, rfl, rfl, rfl⟩
  | cons b bs IH =>
    intro st st' h
    rw [processBoms] at h
    cases hs : stepBom subject st b with
    | error e => rw [hs] at h; cases h
    | ok st2 =>
      rw [hs] at h
      have ih := IH (fun x hx => hdecl x (by simp [hx])) st2 st' h
      cases hmd : b.metadata with
      | none => simp [stepBom, hmd] at hs
      | some md =>
        cases hc : md.component with
        | none => simp [stepBom, hmd, hc] at hs
        | some root =>
          have hd : b.declarations = none := hdecl b (by simp)
          simp only [stepBom, hmd, hc] at hs
          cases hs
          obtain ⟨i1, i2, i3, i4, i5, i6, i7⟩ := ih
          cases subject <;> cases htc : md.tools <;>
            simp [i1, i2, i3, i4, i5, i6, i7, hd, htc]

theorem nsOf_withBOMRef (c : Component) (r : String) :
    nsOf (c.withBOMRef r) = nsOf c := by
  cases c; rfl

theorem append_at_append_ne_empty (s t : String) : s ++ "@" ++ t ≠ "" := by
  intro h
  have hl := congrArg String.length h
  rw [String.length_append, String.length_append] at hl
  have h1 : String.length "@" = 1 := rfl
  have h0 : String.length "" = 0 := rfl
  omega

theorem nsOf_ne_empty (c : Component) : nsOf c ≠ "" := by
  cases c with
  | mk t g n v r cs =>
    simp only [nsOf, componentBOMRefNamespace]
    split <;> exact append_at_append_ne_empty _ _

theorem emptyToNone_of_ne_nil {α : Type} {l : List α} (h : l ≠ []) :
    emptyToNone l = some l := by
  simp [emptyToNone, List.isEmpty_iff, h]

theorem stepBom_root_none (subject : Option Component) (st : MState) (b : BOM)
    (h : rootOf b = none) :
    stepBom subject st b = .error (.missingMetadataComponent (serialOf b)) := by
  cases hmd : b.metadata with
  | none => simp [stepBom, serialOf, hmd]
  | some md =>
    cases hc : md.component with
    | none => simp [stepBom, serialOf, hmd, hc]
    | some root => simp [rootOf, hmd, hc] at h

theorem stepBom_root_some (subject : Option Component) (st : MState) (b : BOM)
    (h : (rootOf b).isSome) : ∃ st2, stepBom subject st b = .ok st2 := by
  cases hmd : b.metadata with
  | none => simp [rootOf, hmd] at h
  | some md =>
    cases hc : md.component with
    | none => simp [rootOf, hmd, hc] at h
    | some root =>
      cases hres : stepBom subject st b with
      | ok st2 => exact ⟨st2, rfl⟩
      | error e => simp [stepBom, hmd, hc] at hres

theorem processBoms_ok_of_roots (subject : Option Component) (boms : List BOM) :
    (∀ b ∈ boms, (rootOf b).isSome) → ∀ st,
      ∃ st', processBoms subject boms st = .ok st' := by
  induction boms with
  | nil => intro _ st; exact ⟨st, rfl⟩
  | cons b bs IH =>
    intro h st
    obtain ⟨st2, h2⟩ := stepBom_root_some subject st b (h b (by simp))
    obtain ⟨st', h'⟩ := IH (fun x hx => h x (by simp [hx])) st2
    exact ⟨st', by rw [processBoms, h2]; exact h'⟩

theorem processBoms_first_error (subject : Option Component)
    (pre : List BOM) (bad : BOM) (post : List BOM) :
    (∀ x ∈ pre, (rootOf x).isSome) → rootOf bad = none → ∀ st,
      processBoms subject (pre ++ bad :: post) st =
        .error (.missingMetadataComponent (serialOf bad)) := by
  induction pre with
  | nil =>
    intro _ hbad st
    rw [List.nil_append, processBoms, stepBom_root_none subject st bad hbad]
  | cons x pre IH =>
    intro h hbad st
    obtain ⟨st2, h2⟩ := stepBom_root_some subject st x (h x (by simp))
    rw [List.cons_append, processBoms, h2]
    exact IH (fun y hy => h y (by simp [hy])) hbad st2

theorem fixSubject_subjectFor (opts : CycloneDxMergeOptions) :
    fixSubject (subjectFor opts) = subjectFixed opts := by
  simp [fixSubject, subjectFor, subjectFixed, Component.bomRef, Component.withBOMRef]

theorem CycloneDXMerge_eq_ok (opts : CycloneDxMergeOptions) (st' : MState)
    (hn : opts.name ≠ "") (hv : opts.version ≠ "")
    (hok : processBoms (some (subjectFixed opts)) opts.boms MState.init = .ok st') :
    CycloneDXMerge opts =
      .ok { buildResult (some (subjectFixed opts)) st' with version := 1 } := by
  rw [CycloneDXMerge, if_neg (by simp [hn, hv])]
  rw [HierarchicalMerge]
  have h1 : Option.map fixSubject (some (subjectFor opts)) = some (subjectFixed opts) := by
    simp [fixSubject_subjectFor]
  rw [h1, hok]
  simp [buildResult]

theorem decStep_fst (stn : St2 × List String) (p : String) :
    (decStep stn p).1.processed = stn.1.processed ∧
    (decStep stn p).1.resultPath = stn.1.resultPath ∧
    (decStep stn p).1.filesLog = stn.1.filesLog ∧
    (decStep stn p).1.remaining = fupd stn.1.remaining p (stn.1.remaining p - 1) := by
  simp only [decStep]
  split <;> simp

theorem decFold_frame (ps : List String) : ∀ stn : St2 × List String,
    (ps.foldl decStep stn).1.processed = stn.1.processed ∧
    (ps.foldl decStep stn).1.resultPath = stn.1.resultPath ∧
    (ps.foldl decStep stn).1.filesLog = stn.1.filesLog := by
  induction ps with
  | nil => intro stn; exact ⟨rfl, rfl, rfl⟩
  | cons p rest IH =>
    intro stn
    rw [List.foldl_cons]
    obtain ⟨h1, h2, h3⟩ := IH (decStep stn p)
    obtain ⟨d1, d2, d3, _⟩ := decStep_fst stn p
    exact ⟨h1.trans d1, h2.trans d2, h3.trans d3⟩

theorem decFold_remaining (ps : List String) :
    ∀ (stn : St2 × List String) (q : String), ps.Nodup →
      (ps.foldl decStep stn).1.remaining q =
        if q ∈ ps then stn.1.remaining q - 1 else stn.1.remaining q := by
  induction ps with
  | nil => intro stn q _; simp
  | cons p rest IH =>
    intro stn q hnd
    have hp : p ∉ rest := (List.nodup_cons.mp hnd).1
    have hrest : rest.Nodup := (List.nodup_cons.mp hnd).2
    rw [List.foldl_cons, IH (decStep stn p) q hrest]
    obtain ⟨_, _, _, d4⟩ := decStep_fst stn p
    rw [d4]
    by_cases hq : q = p
    · subst hq
      simp [hp, fupd]
    · by_cases hr : q ∈ rest <;> simp [hq, hr, fupd]

theorem decFold_next (ps : List String) :
    ∀ (stn : St2 × List String) (q : String), ps.Nodup →
      q ∈ (ps.foldl decStep stn).2 →
      q ∈ stn.2 ∨ (q ∈ ps ∧ q ∉ stn.1.processed ∧
        (ps.foldl decStep stn).1.remaining q = 0) := by
  induction ps with
  | nil => intro stn q _ h; exact .inl h
  | cons p rest IH =>
    intro stn q hnd h
    have hp : p ∉ rest := (List.nodup_cons.mp hnd).1
    have hrest : rest.Nodup := (List.nodup_cons.mp hnd).2
    rw [List.foldl_cons] at h
    obtain ⟨d1, _, _, d4⟩ := decStep_fst stn p
    rcases IH (decStep stn p) q hrest h with hin | ⟨hq1, hq2, hq3⟩
    · simp only [decStep] at hin
      split at hin
      · rename_i hcond
        rcases List.mem_append.mp hin with hin2 | hin2
        · exact .inl hin2
        · have hqp : q = p := by simpa using hin2
          subst hqp
          have hand := (Bool.and_eq_true _ _).mp hcond
          refine .inr ⟨by simp, by simpa using hand.2, ?_⟩
          have h0 : fupd stn.1.remaining q (stn.1.remaining q - 1) q = 0 :=
            beq_iff_eq.mp hand.1
          rw [List.foldl_cons, decFold_remaining rest _ _ hrest]
          rw [if_neg (by simpa using hp)]
          simp only [decStep]
          split <;> simpa [fupd] using h0
      · exact .inl hin
    · refine .inr ⟨by simp [hq1], ?_, ?_⟩
      · rw [d1] at hq2; exact hq2
      · rw [List.foldl_cons]; exact hq3

theorem cnt_snoc (g : Graph) (proc : List String) (x p : String)
    (hx : x ∉ proc) (hnd : (g.childrenOf p).Nodup) :
    cnt g (proc ++ [x]) p =
      cnt g proc p - (if x ∈ g.childrenOf p then 1 else 0) := by
  unfold cnt
  have h1 : (g.childrenOf p).filter (fun c => !(proc ++ [x]).contains c) =
      ((g.childrenOf p).filter (fun c => !proc.contains c)).filter
        (fun c => c != x) := by
    rw [List.filter_filter]
    apply List.filter_congr
    intro a _
    by_cases hax : a = x <;> by_cases hap : a ∈ proc <;>
      simp [hax, hap]
  rw [h1]
  have hofn : ((g.childrenOf p).filter fun c => !proc.contains c).Nodup :=
    hnd.filter _
  rw [← hofn.erase_eq_filter x]
  by_cases hm : x ∈ g.childrenOf p
  · have hmo : x ∈ (g.childrenOf p).filter fun c => !proc.contains c := by
      simp [List.mem_filter, hm, hx]
    rw [List.length_erase_of_mem hmo, if_pos hm]
    have hlen : 1 ≤ ((g.childrenOf p).filter fun c => !proc.contains c).length :=
      List.length_pos.mpr (List.ne_nil_of_mem hmo)
    push_cast [Nat.cast_sub hlen]
    ring
  · have hmo : x ∉ (g.childrenOf p).filter fun c => !proc.contains c := by
      simp [List.mem_filter, hm]
    rw [List.erase_of_not_mem hmo, if_neg hm]
    ring

theorem cnt_zero_children (g : Graph) (proc : List String) (p : String)
    (h : cnt g proc p = 0) : ∀ c ∈ g.childrenOf p, c ∈ proc := by
  unfold cnt at h
  have hn : ((g.childrenOf p).filter fun c => !proc.contains c).length = 0 := by
    exact_mod_cast h
  have he := List.length_eq_zero.mp hn
  intro c hc
  by_contra hcp
  have : c ∈ (g.childrenOf p).filter fun c => !proc.contains c := by
    simp [List.mem_filter, hc, hcp]
  rw [he] at this
  cases this

theorem postOrd_snoc (g : Graph) (l : List String) (x : String)
    (hpo : PostOrd g l) (hch : ∀ c ∈ g.childrenOf x, c ∈ l) :
    PostOrd g (l ++ [x]) := by
  intro pre n post heq c hc
  rcases List.append_eq_append_iff.mp heq with ⟨a, ha1, ha2⟩ | ⟨a, ha1, ha2⟩
  · cases a with
    | nil =>
      simp only [List.nil_append] at ha2
      injection ha2 with h1 h2
      simp only [List.append_nil] at ha1
      subst ha1
      rw [← h1] at hc
      exact hch c hc
    | cons y ys =>
      have := congrArg List.length ha2
      simp at this
  · cases a with
    | nil =>
      simp only [List.append_nil] at ha1
      simp only [List.nil_append] at ha2
      injection ha2 with hn hp
      rw [hn] at hc
      rw [ha1] at hch
      exact hch c hc
    | cons y ys =>
      simp only [List.cons_append] at ha2
      injection ha2 with hn hp
      subst hn hp
      exact hpo pre n ys ha1 c hc

theorem finalizePropagate_inv (g : Graph) (hg : GraphOK g)
    (st st2 : St2) (next pending : List String) (nid : String)
    (hproc : st2.processed = st.processed ++ [nid])
    (hrem : st2.remaining = st.remaining)
    (hnodup : st.processed.Nodup)
    (hpost : PostOrd g st.processed)
    (hcnt : ∀ p ∈ g.allNodes, st.remaining p = cnt g st.processed p)
    (hready : ∀ n ∈ pending ++ next,
      n ∈ g.allNodes ∧ ∀ c ∈ g.childrenOf n, c ∈ st.processed)
    (hmem : nid ∈ g.allNodes)
    (hchild : ∀ c ∈ g.childrenOf nid, c ∈ st.processed)
    (hnp : nid ∉ st.processed) :
    Inv g (propagate g nid (st2, next)).1
      (pending ++ (propagate g nid (st2, next)).2) := by
  obtain ⟨hGc, hGp, hGcp, hGpc, hGdom⟩ := hg
  have hpnd : (g.parentsOf nid).Nodup := hGp nid hmem
  have hframe := decFold_frame (g.parentsOf nid) (st2, next)
  have hfp : (propagate g nid (st2, next)).1.processed = st.processed ++ [nid] := by
    rw [propagate] at *
    rw [hframe.1, hproc]
  have hfr : ∀ q, (propagate g nid (st2, next)).1.remaining q =
      if q ∈ g.parentsOf nid then st.remaining q - 1 else st.remaining q := by
    intro q
    rw [propagate, decFold_remaining _ _ _ hpnd, hrem]
  have hcnt2 : ∀ p ∈ g.allNodes,
      (propagate g nid (st2, next)).1.remaining p =
        cnt g (st.processed ++ [nid]) p := by
    intro p hp
    rw [hfr p, cnt_snoc g st.processed nid p hnp (hGc p hp)]
    by_cases hpp : p ∈ g.parentsOf nid
    · rw [if_pos hpp, hcnt p hp, if_pos (hGpc nid hmem p hpp)]
    · rw [if_neg hpp, hcnt p hp, if_neg (fun hcon => hpp (hGcp p hp nid hcon))]
      ring
  refine ⟨?_, ?_, ?_, ?_⟩
  · rw [hfp]
    simp [List.nodup_append, hnodup, hnp]
  · rw [hfp]
    exact postOrd_snoc g _ nid hpost hchild
  · intro p hp
    rw [hfp]
    exact hcnt2 p hp
  · intro n hn
    rcases List.mem_append.mp hn with hn1 | hn1
    · obtain ⟨ha, hb⟩ := hready n (List.mem_append_left _ hn1)
      refine ⟨ha, fun c hc => ?_⟩
      rw [hfp]
      exact List.mem_append_left _ (hb c hc)
    · rcases decFold_next _ (st2, next) n hpnd hn1 with hn2 | ⟨hn2, hn3, hn4⟩
      · obtain ⟨ha, hb⟩ := hready n (List.mem_append_right _ hn2)
        refine ⟨ha, fun c hc => ?_⟩
        rw [hfp]
        exact List.mem_append_left _ (hb c hc)
      · have hna : n ∈ g.allNodes := hGdom nid hmem n hn2
        refine ⟨hna, fun c hc => ?_⟩
        have h0 : cnt g (st.processed ++ [nid]) n = 0 := by
          rw [← hcnt2 n hna]
          exact hn4
        rw [hfp]
        exact cnt_zero_children g _ n h0 c hc

theorem stepNode_inv (g : Graph) (m : String → List String → Option String)
    (hg : GraphOK g) (st : St2) (next rest : List String) (nid : String)
    (hinv : Inv g st ((nid :: rest) ++ next)) :
    Inv g (stepNode g m (st, next) nid).1
      (rest ++ (stepNode g m (st, next) nid).2) := by
  obtain ⟨hnodup, hpost, hcnt, hready⟩ := hinv
  by_cases hmemp : nid ∈ st.processed
  · have hstep : stepNode g m (st, next) nid = (st, next) := by
      simp [stepNode, hmemp]
    rw [hstep]
    exact ⟨hnodup, hpost, hcnt, fun n hn => hready n (by
      rcases List.mem_append.mp hn with h | h
      · exact List.mem_append_left _ (List.mem_cons_of_mem _ h)
      · exact List.mem_append_right _ h)⟩
  · obtain ⟨hmem, hchild⟩ := hready nid (by simp)
    have hready2 : ∀ n ∈ rest ++ next,
        n ∈ g.allNodes ∧ ∀ c ∈ g.childrenOf n, c ∈ st.processed := by
      intro n hn
      refine hready n ?_
      rcases List.mem_append.mp hn with h | h
      · exact List.mem_append_left _ (List.mem_cons_of_mem _ h)
      · exact List.mem_append_right _ h
    cases hfiles : gatherFiles g st nid with
    | nil =>
      have hstep : stepNode g m (st, next) nid =
          propagate g nid
            ({ st with processed := st.processed ++ [nid]
                       filesLog := st.filesLog ++ [(nid, [])] }, next) := by
        simp [stepNode, hmemp, hfiles]
      rw [hstep]
      exact finalizePropagate_inv g hg st _ next rest nid rfl rfl
        hnodup hpost hcnt hready2 hmem hchild hmemp
    | cons f0 fs =>
      have hstep : stepNode g m (st, next) nid =
          propagate g nid
            ({ st with
               resultPath := st.resultPath ++
                 [(nid,
                   if fs.isEmpty then f0
                   else match m nid (f0 :: fs) with
                        | some out => out
                        | none => f0)]
               processed := st.processed ++ [nid]
               filesLog := st.filesLog ++ [(nid, f0 :: fs)] }, next) := by
        simp [stepNode, hmemp, hfiles]
      rw [hstep]
      exact finalizePropagate_inv g hg st _ next rest nid rfl rfl
        hnodup hpost hcnt hready2 hmem hchild hmemp

theorem waveFold_inv (g : Graph) (m : String → List String → Option String)
    (hg : GraphOK g) : ∀ (batch : List String) (st : St2) (next : List String),
    Inv g st (batch ++ next) →
    Inv g (batch.foldl (stepNode g m) (st, next)).1
      (batch.foldl (stepNode g m) (st, next)).2 := by
  intro batch
  induction batch with
  | nil => intro st next h; simpa using h
  | cons nid rest IH =>
    intro st next h
    rw [List.foldl_cons]
    have h2 := stepNode_inv g m hg st next rest nid h
    have := IH (stepNode g m (st, next) nid).1 (stepNode g m (st, next) nid).2 h2
    simpa using this

theorem waves_post (g : Graph) (m : String → List String → Option String)
    (hg : GraphOK g) : ∀ (fuel : Nat) (st : St2) (batch : List String),
    Inv g st batch →
    (waves g m fuel st batch).processed.Nodup ∧
      PostOrd g (waves g m fuel st batch).processed := by
  intro fuel
  induction fuel with
  | zero => intro st batch h; exact ⟨h.1, h.2.1⟩
  | succ fuel IH =>
    intro st batch h
    rw [waves]
    split
    · have h2 := waveFold_inv g m hg batch st [] (by simpa using h)
      exact IH _ _ h2
    · exact ⟨h.1, h.2.1⟩

theorem init_inv (g : Graph) :
    Inv g (St2.init g)
      (g.allNodes.filter fun nid => (St2.init g).remaining nid == 0) := by
  refine ⟨List.nodup_nil, ?_, ?_, ?_⟩
  · intro pre n post h
    cases pre <;> simp [St2.init] at h
  · intro p hp
    simp [St2.init, cnt, hp]
  · intro n hn
    obtain ⟨hn1, hn2⟩ := List.mem_filter.mp hn
    refine ⟨hn1, ?_⟩
    have h0 : ((g.childrenOf n).length : Int) = 0 := by
      have := beq_iff_eq.mp hn2
      simpa [St2.init, hn1] using this
    have hlen : (g.childrenOf n).length = 0 := by exact_mod_cast h0
    rw [List.length_eq_zero.mp hlen]
    intro c hc
    cases hc

theorem runPhase2_post (g : Graph) (m : String → List String → Option String)
    (hg : GraphOK g) :
    (runPhase2 g m).processed.Nodup ∧ PostOrd g (runPhase2 g m).processed := by
  rw [runPhase2]
  exact waves_post g m hg _ _ _ (init_inv g)

theorem decFold_next_mono (ps : List String) :
    ∀ (stn : St2 × List String) (q : String), q ∈ stn.2 →
      q ∈ (ps.foldl decStep stn).2 := by
  induction ps with
  | nil => intro stn q h; exact h
  | cons p rest IH =>
    intro stn q h
    rw [List.foldl_cons]
    refine IH (decStep stn p) q ?_
    simp only [decStep]
    split
    · exact List.mem_append_left _ h
    · exact h

theorem decFold_next_complete (ps : List String) :
    ∀ (stn : St2 × List String) (q : String), ps.Nodup → q ∈ ps →
      q ∉ stn.1.processed → (ps.foldl decStep stn).1.remaining q = 0 →
      q ∈ (ps.foldl decStep stn).2 := by
  induction ps with
  | nil => intro stn q _ h; cases h
  | cons p rest IH =>
    intro stn q hnd hq hqp hrem
    have hp : p ∉ rest := (List.nodup_cons.mp hnd).1
    have hrest : rest.Nodup := (List.nodup_cons.mp hnd).2
    rw [List.foldl_cons] at hrem ⊢
    rcases List.mem_cons.mp hq with rfl | hq2
    · have hremp : (decStep stn q).1.remaining q = 0 := by
        rw [decFold_remaining rest _ _ hrest, if_neg (by simpa using hp)] at hrem
        exact hrem
      obtain ⟨d1, -, -, d4⟩ := decStep_fst stn q
      have hcond : ((fupd stn.1.remaining q (stn.1.remaining q - 1) q == 0) &&
          !stn.1.processed.contains q) = true := by
        rw [d4] at hremp
        simp only [Bool.and_eq_true, beq_iff_eq]
        exact ⟨hremp, by simpa using hqp⟩
      have hmem : q ∈ (decStep stn q).2 := by
        simp only [decStep]
        rw [if_pos (by simpa [fupd] using hcond)]
        simp
      exact decFold_next_mono rest (decStep stn q) q hmem
    · refine IH (decStep stn p) q hrest hq2 ?_ hrem
      obtain ⟨d1, -, -, -⟩ := decStep_fst stn p
      rw [d1]
      exact hqp

theorem stepNode_processed_mono (g : Graph)
    (m : String → List String → Option String) (stn : St2 × List String)
    (nid : String) :
    ∃ t, (stepNode g m stn nid).1.processed = stn.1.processed ++ t := by
  by_cases hmemp : nid ∈ stn.1.processed
  · exact ⟨[], by simp [stepNode, hmemp]⟩
  · cases hfiles : gatherFiles g stn.1 nid with
    | nil =>
      refine ⟨[nid], ?_⟩
      simp [stepNode, hmemp, hfiles, propagate, (decFold_frame _ _).1]
    | cons f0 fs =>
      refine ⟨[nid], ?_⟩
      simp [stepNode, hmemp, hfiles, propagate, (decFold_frame _ _).1]

theorem foldl_stepNode_length_mono (g : Graph)
    (m : String → List String → Option String) (batch : List String) :
    ∀ stn : St2 × List String,
      stn.1.processed.length ≤ (batch.foldl (stepNode g m) stn).1.processed.length := by
  induction batch with
  | nil => intro stn; exact le_refl _
  | cons nid rest IH =>
    intro stn
    rw [List.foldl_cons]
    obtain ⟨t, ht⟩ := stepNode_processed_mono g m stn nid
    calc stn.1.processed.length ≤ (stepNode g m stn nid).1.processed.length := by
          rw [ht]; simp
      _ ≤ _ := IH (stepNode g m stn nid)

theorem stepNode_inv2 (g : Graph) (m : String → List String → Option String)
    (hg : GraphOK g) (st : St2) (next rest : List String) (nid : String)
    (hmem : nid ∈ g.allNodes)
    (h2 : Inv2 g st ((nid :: rest) ++ next)) :
    Inv2 g (stepNode g m (st, next) nid).1
      (rest ++ (stepNode g m (st, next) nid).2) := by
  obtain ⟨hps, hrd⟩ := h2
  have hpnd : (g.parentsOf nid).Nodup := hg.2.1 nid hmem
  by_cases hmemp : nid ∈ st.processed
  · have hstep : stepNode g m (st, next) nid = (st, next) := by
      simp [stepNode, hmemp]
    rw [hstep]
    refine ⟨hps, fun n hn hnp hr0 => ?_⟩
    have hmem3 : n = nid ∨ n ∈ rest ∨ n ∈ next := by
      simpa using hrd n hn hnp hr0
    rcases hmem3 with rfl | h | h
    · exact absurd hmemp hnp
    · exact List.mem_append_left _ h
    · exact List.mem_append_right _ h
  · have hmain : ∀ st2 : St2, st2.processed = st.processed ++ [nid] →
        st2.remaining = st.remaining →
        Inv2 g (propagate g nid (st2, next)).1
          (rest ++ (propagate g nid (st2, next)).2) := by
      intro st2 hproc hrem
      have hfp : (propagate g nid (st2, next)).1.processed =
          st.processed ++ [nid] := by
        rw [propagate, (decFold_frame _ _).1, hproc]
      have hfr : ∀ q, (propagate g nid (st2, next)).1.remaining q =
          if q ∈ g.parentsOf nid then st.remaining q - 1 else st.remaining q := by
        intro q
        rw [propagate, decFold_remaining _ _ _ hpnd, hrem]
      constructor
      · intro n hn
        rw [hfp] at hn
        rcases List.mem_append.mp hn with h | h
        · exact hps n h
        · simp at h
          rw [h]
          exact hmem
      · intro n hn hnp hr0
        rw [hfp] at hnp
        have hnid : n ≠ nid := by
          intro hcon
          exact hnp (hcon ▸ List.mem_append_right _ (by simp))
        have hnps : n ∉ st.processed := fun h => hnp (List.mem_append_left _ h)
        by_cases hpar : n ∈ g.parentsOf nid
        · have hcomp := decFold_next_complete (g.parentsOf nid) (st2, next) n
            hpnd hpar (by rw [hproc]; exact hnp) (by rw [← propagate]; exact hr0)
          rw [← propagate] at hcomp
          exact List.mem_append_right _ hcomp
        · have hr0' : st.remaining n = 0 := by
            have := hfr n
            rw [if_neg hpar] at this
            rw [← this]
            exact hr0
          have hmem3 : n = nid ∨ n ∈ rest ∨ n ∈ next := by
            simpa using hrd n hn hnps hr0'
          rcases hmem3 with rfl | h2 | h2
          · exact absurd rfl hnid
          · exact List.mem_append_left _ h2
          · refine List.mem_append_right _ ?_
            rw [propagate]
            exact decFold_next_mono _ _ _ h2
    cases hfiles : gatherFiles g st nid with
    | nil =>
      have hstep : stepNode g m (st, next) nid =
          propagate g nid
            ({ st with processed := st.processed ++ [nid]
                       filesLog := st.filesLog ++ [(nid, [])] }, next) := by
        simp [stepNode, hmemp, hfiles]
      rw [hstep]
      exact hmain _ rfl rfl
    | cons f0 fs =>
      have hstep : stepNode g m (st, next) nid =
          propagate g nid
            ({ st with
               resultPath := st.resultPath ++
                 [(nid,
                   if fs.isEmpty then f0
                   else match m nid (f0 :: fs) with
                        | some out => out
                        | none => f0)]
               processed := st.processed ++ [nid]
               filesLog := st.filesLog ++ [(nid, f0 :: fs)] }, next) := by
        simp [stepNode, hmemp, hfiles]
      rw [hstep]
      exact hmain _ rfl rfl

theorem waveFold_inv12 (g : Graph) (m : String → List String → Option String)
    (hg : GraphOK g) : ∀ (batch : List String) (st : St2) (next : List String),
    Inv g st (batch ++ next) → Inv2 g st (batch ++ next) →
    Inv g (batch.foldl (stepNode g m) (st, next)).1
      (batch.foldl (stepNode g m) (st, next)).2 ∧
    Inv2 g (batch.foldl (stepNode g m) (st, next)).1
      (batch.foldl (stepNode g m) (st, next)).2 := by
  intro batch
  induction batch with
  | nil => intro st next h1 h2; exact ⟨by simpa using h1, by simpa using h2⟩
  | cons nid rest IH =>
    intro st next h1 h2
    rw [List.foldl_cons]
    have hmem : nid ∈ g.allNodes := (h1.2.2.2 nid (by simp)).1
    have hstep1 := stepNode_inv g m hg st next rest nid h1
    have hstep2 := stepNode_inv2 g m hg st next rest nid hmem h2
    have := IH (stepNode g m (st, next) nid).1 (stepNode g m (st, next) nid).2
      hstep1 hstep2
    simpa using this

theorem waveFold_progress (g : Graph) (m : String → List String → Option String) :
    ∀ (batch : List String) (st : St2) (next : List String),
      (∃ n ∈ batch, n ∉ st.processed) →
      st.processed.length < (batch.foldl (stepNode g m) (st, next)).1.processed.length := by
  intro batch
  induction batch with
  | nil => intro st next ⟨n, hn, _⟩; cases hn
  | cons nid rest IH =>
    intro st next ⟨n, hn, hnp⟩
    rw [List.foldl_cons]
    by_cases hmemp : nid ∈ st.processed
    · have hstep : stepNode g m (st, next) nid = (st, next) := by
        simp [stepNode, hmemp]
      rw [hstep]
      refine IH st next ⟨n, ?_, hnp⟩
      rcases List.mem_cons.mp hn with rfl | h
      · exact absurd hmemp hnp
      · exact h
    · obtain ⟨t, ht⟩ := stepNode_processed_mono g m (st, next) nid
      have hlen : (stepNode g m (st, next) nid).1.processed.length =
          st.processed.length + 1 := by
        have hne : t ≠ [] := by
          intro hcon
          rw [hcon, List.append_nil] at ht
          have : (stepNode g m (st, next) nid).1.processed = st.processed ++ [nid] := by
            cases hfiles : gatherFiles g st nid with
            | nil => simp [stepNode, hmemp, hfiles, propagate, (decFold_frame _ _).1]
            | cons f0 fs =>
              simp [stepNode, hmemp, hfiles, propagate, (decFold_frame _ _).1]
          rw [ht] at this
          have := congrArg List.length this
          simp at this
        have : (stepNode g m (st, next) nid).1.processed = st.processed ++ [nid] := by
          cases hfiles : gatherFiles g st nid with
          | nil => simp [stepNode, hmemp, hfiles, propagate, (decFold_frame _ _).1]
          | cons f0 fs =>
            simp [stepNode, hmemp, hfiles, propagate, (decFold_frame _ _).1]
        rw [this]
        simp
      calc st.processed.length < (stepNode g m (st, next) nid).1.processed.length := by
            rw [hlen]; omega
        _ ≤ _ := foldl_stepNode_length_mono g m rest _

theorem exists_min_rank (f : String → Nat) :
    ∀ (l : List String), l ≠ [] → ∃ a ∈ l, ∀ b ∈ l, f a ≤ f b
  | [], h => absurd rfl h
  | [x], _ => ⟨x, by simp, by simp⟩
  | x :: y :: ys, _ => by
    obtain ⟨a, ha, hmin⟩ := exists_min_rank f (y :: ys) (by simp)
    by_cases hc : f x ≤ f a
    · refine ⟨x, by simp, fun b hb => ?_⟩
      rcases List.mem_cons.mp hb with rfl | hb2
      · exact le_refl _
      · exact le_trans hc (hmin b hb2)
    · refine ⟨a, List.mem_cons_of_mem _ ha, fun b hb => ?_⟩
      rcases List.mem_cons.mp hb with rfl | hb2
      · exact le_of_not_le hc
      · exact hmin b hb2

theorem nodup_subset_length_le (l1 l2 : List String) (h1 : l1.Nodup)
    (hsub : l1 ⊆ l2) : l1.length ≤ l2.length := by
  have hfsub : l1.toFinset ⊆ l2.toFinset := by
    intro y hy
    simp only [List.mem_toFinset] at hy ⊢
    exact hsub hy
  calc l1.length = l1.toFinset.card := (List.toFinset_card_of_nodup h1).symm
    _ ≤ l2.toFinset.card := Finset.card_le_card hfsub
    _ ≤ l2.length := List.toFinset_card_le l2

theorem mem_of_nodup_cover (l1 l2 : List String) (h1 : l1.Nodup)
    (h2 : l2.Nodup) (hsub : l1 ⊆ l2) (hlen : l2.length ≤ l1.length) :
    ∀ x ∈ l2, x ∈ l1 := by
  intro x hx
  have hfsub : l1.toFinset ⊆ l2.toFinset := by
    intro y hy
    simp only [List.mem_toFinset] at hy ⊢
    exact hsub hy
  have hc1 : l1.toFinset.card = l1.length := List.toFinset_card_of_nodup h1
  have hc2 : l2.toFinset.card = l2.length := List.toFinset_card_of_nodup h2
  have heq : l1.toFinset = l2.toFinset :=
    Finset.eq_of_subset_of_card_le hfsub (by omega)
  have : x ∈ l2.toFinset := by simp [hx]
  rw [← heq] at this
  simpa using this

theorem cnt_zero_of_children (g : Graph) (proc : List String) (p : String)
    (h : ∀ c ∈ g.childrenOf p, c ∈ proc) : cnt g proc p = 0 := by
  unfold cnt
  have : (g.childrenOf p).filter (fun c => !proc.contains c) = [] := by
    rw [List.filter_eq_nil_iff]
    intro c hc
    simp [h c hc]
  rw [this]
  rfl

theorem waves_complete (g : Graph) (m : String → List String → Option String)
    (hg : GraphOK g) (hall : g.allNodes.Nodup)
    (hclosed : ∀ n ∈ g.allNodes, ∀ c ∈ g.childrenOf n, c ∈ g.allNodes)
    (rank : String → Nat)
    (hrank : ∀ n ∈ g.allNodes, ∀ c ∈ g.childrenOf n, rank c < rank n) :
    ∀ (fuel : Nat) (st : St2) (batch : List String),
      Inv g st batch → Inv2 g st batch →
      g.allNodes.length ≤ st.processed.length + fuel →
      ∀ n ∈ g.allNodes, n ∈ (waves g m fuel st batch).processed := by
  have hready : ∀ (st : St2) (batch : List String), Inv g st batch →
      Inv2 g st batch → st.processed.length < g.allNodes.length →
      ∃ a ∈ batch, a ∉ st.processed := by
    intro st batch h1 h2 hlt
    have hex : ∃ x ∈ g.allNodes, x ∉ st.processed := by
      by_contra hcon
      push_neg at hcon
      have : g.allNodes.length ≤ st.processed.length :=
        nodup_subset_length_le g.allNodes st.processed hall hcon
      omega
    obtain ⟨x, hx1, hx2⟩ := hex
    have hSne : g.allNodes.filter (fun y => !st.processed.contains y) ≠ [] := by
      apply List.ne_nil_of_mem (a := x)
      simp [List.mem_filter, hx1, hx2]
    obtain ⟨a, haS, hamin⟩ := exists_min_rank rank _ hSne
    have ha1 : a ∈ g.allNodes := (List.mem_filter.mp haS).1
    have ha2 : a ∉ st.processed := by
      have := (List.mem_filter.mp haS).2
      simpa using this
    have hchild : ∀ c ∈ g.childrenOf a, c ∈ st.processed := by
      intro c hc
      by_contra hcp
      have hcS : c ∈ g.allNodes.filter (fun y => !st.processed.contains y) := by
        simp [List.mem_filter, hclosed a ha1 c hc, hcp]
      have := hamin c hcS
      have := hrank a ha1 c hc
      omega
    have hr0 : st.remaining a = 0 := by
      rw [h1.2.2.1 a ha1]
      exact cnt_zero_of_children g _ a hchild
    exact ⟨a, h2.2 a ha1 ha2 hr0, ha2⟩
  intro fuel
  induction fuel with
  | zero =>
    intro st batch h1 h2 hlen n hn
    rw [waves]
    exact mem_of_nodup_cover st.processed g.allNodes h1.1 hall h2.1
      (by omega) n hn
  | succ fuel IH =>
    intro st batch h1 h2 hlen n hn
    rw [waves]
    split
    · rename_i hcond
      have h12 := waveFold_inv12 g m hg batch st [] (by simpa using h1)
        (by simpa using h2)
      have hprog := waveFold_progress g m batch st []
        (hready st batch h1 h2 hcond.1)
      exact IH _ _ h12.1 h12.2 (by omega) n hn
    · rename_i hcond
      by_cases hfull : g.allNodes.length ≤ st.processed.length
      · exact mem_of_nodup_cover st.processed g.allNodes h1.1 hall h2.1
          hfull n hn
      · exfalso
        have hlt : st.processed.length < g.allNodes.length := by omega
        have hbatch : batch = [] := by
          by_contra hb
          exact hcond ⟨hlt, hb⟩
        obtain ⟨a, haB, -⟩ := hready st batch h1 h2 hlt
        rw [hbatch] at haB
        cases haB

theorem init_inv2 (g : Graph) :
    Inv2 g (St2.init g)
      (g.allNodes.filter fun nid => (St2.init g).remaining nid == 0) := by
  constructor
  · intro n hn
    simp [St2.init] at hn
  · intro n hn _ hr0
    simp only [List.mem_filter]
    refine ⟨hn, ?_⟩
    simp only [beq_iff_eq]
    exact hr0

theorem runPhase2_complete (g : Graph) (m : String → List String → Option String)
    (hg : GraphOK g) (hall : g.allNodes.Nodup)
    (hclosed : ∀ n ∈ g.allNodes, ∀ c ∈ g.childrenOf n, c ∈ g.allNodes)
    (rank : String → Nat)
    (hrank : ∀ n ∈ g.allNodes, ∀ c ∈ g.childrenOf n, rank c < rank n) :
    ∀ n ∈ g.allNodes, n ∈ (runPhase2 g m).processed := by
  rw [runPhase2]
  exact waves_complete g m hg hall hclosed rank hrank _ _ _
    (init_inv g) (init_inv2 g) (by simp [St2.init])

theorem gatherFiles_ne (g : Graph) (st : St2) (nid : String) :
    ∀ f ∈ gatherFiles g st nid, f ≠ "" := by
  intro f hf
  rcases List.mem_append.mp hf with h | h
  · split at h
    · rename_i hres
      simp at h
      rw [h]
      exact hres
    · cases h
  · exact of_decide_eq_true (List.mem_filter.mp h).2

theorem decFold_resultPath (ps : List String) (stn : St2 × List String) :
    (ps.foldl decStep stn).1.resultPath = stn.1.resultPath :=
  (decFold_frame ps stn).2.1

theorem stepNode_vals (g : Graph) (m : String → List String → Option String)
    (hm : ∀ nid files, m nid files ≠ some "")
    (st : St2) (next : List String) (nid : String)
    (hvals : ∀ kv ∈ st.resultPath, kv.2 ≠ "") :
    ∀ kv ∈ (stepNode g m (st, next) nid).1.resultPath, kv.2 ≠ "" := by
  by_cases hmemp : nid ∈ st.processed
  · simpa [stepNode, hmemp] using hvals
  · cases hfiles : gatherFiles g st nid with
    | nil =>
      have hstep : (stepNode g m (st, next) nid).1.resultPath = st.resultPath := by
        simp [stepNode, hmemp, hfiles, propagate, decFold_resultPath]
      rw [hstep]
      exact hvals
    | cons f0 fs =>
      have hf0 : f0 ≠ "" := gatherFiles_ne g st nid f0 (by rw [hfiles]; simp)
      have hval : (if fs = [] then f0
          else match m nid (f0 :: fs) with
               | some out => out
               | none => f0) ≠ "" := by
        split
        · exact hf0
        · split
          · rename_i out hout
            intro hcon
            rw [hcon] at hout
            exact hm nid (f0 :: fs) hout
          · exact hf0
      have hstep : (stepNode g m (st, next) nid).1.resultPath =
          st.resultPath ++ [(nid,
            if fs = [] then f0
            else match m nid (f0 :: fs) with
                 | some out => out
                 | none => f0)] := by
        simp [stepNode, hmemp, hfiles, propagate, decFold_resultPath]
      rw [hstep]
      intro kv hkv
      rcases List.mem_append.mp hkv with h | h
      · exact hvals kv h
      · simp at h
        rw [h]
        exact hval

theorem waveFold_vals (g : Graph) (m : String → List String → Option String)
    (hm : ∀ nid files, m nid files ≠ some "") :
    ∀ (batch : List String) (st : St2) (next : List String),
      (∀ kv ∈ st.resultPath, kv.2 ≠ "") →
      ∀ kv ∈ (batch.foldl (stepNode g m) (st, next)).1.resultPath, kv.2 ≠ "" := by
  intro batch
  induction batch with
  | nil => intro st next h; simpa using h
  | cons nid rest IH =>
    intro st next h
    rw [List.foldl_cons]
    have h2 := stepNode_vals g m hm st next nid h
    have := IH (stepNode g m (st, next) nid).1 (stepNode g m (st, next) nid).2 h2
    simpa using this

theorem waves_vals (g : Graph) (m : String → List String → Option String)
    (hm : ∀ nid files, m nid files ≠ some "") :
    ∀ (fuel : Nat) (st : St2) (batch : List String),
      (∀ kv ∈ st.resultPath, kv.2 ≠ "") →
      ∀ kv ∈ (waves g m fuel st batch).resultPath, kv.2 ≠ "" := by
  intro fuel
  induction fuel with
  | zero => intro st batch h; exact h
  | succ fuel IH =>
    intro st batch h
    rw [waves]
    split
    · exact IH _ _ (waveFold_vals g m hm batch st [] h)
    · exact h

theorem runPhase2_vals (g : Graph) (m : String → List String → Option String)
    (hm : ∀ nid files, m nid files ≠ some "") :
    ∀ kv ∈ (runPhase2 g m).resultPath, kv.2 ≠ "" := by
  rw [runPhase2]
  exact waves_vals g m hm _ _ _ (by simp [St2.init])

theorem selectResult_spec (st : St2) (root : String)
    (hvals : ∀ kv ∈ st.resultPath, kv.2 ≠ "") :
    (∀ p, lookupA st.resultPath root = some p → selectResult st root = some [p]) ∧
    (lookupA st.resultPath root = none →
      selectResult st root = (st.resultPath.head?.map (·.2)).map fun p => [p]) := by
  constructor
  · intro p hp
    have hpne : p ≠ "" := by
      rcases Option.map_eq_some'.mp hp with ⟨kv, hkv1, hkv2⟩
      rw [← hkv2]
      exact hvals kv (List.mem_of_find?_eq_some hkv1)
    simp [selectResult, hp, hpne]
  · intro hp
    cases hhead : st.resultPath with
    | nil =>
      rw [hhead] at hp
      simp [selectResult, hp, hhead, lookupA]
    | cons kv rest =>
      rw [hhead] at hp
      have hkv : kv.2 ≠ "" := hvals kv (by rw [hhead]; simp)
      simp [selectResult, hp, hhead, hkv]

theorem processBoms_error_of_mem (subject : Option Component) (boms : List BOM)
    (bad : BOM) (hmem : bad ∈ boms) (hbad : rootOf bad = none) :
    ∀ st, ∃ e, processBoms subject boms st = .error e := by
  induction boms with
  | nil => cases hmem
  | cons x rest IH =>
    intro st
    cases hsx : stepBom subject st x with
    | error e => exact ⟨e, by rw [processBoms, hsx]⟩
    | ok st2 =>
      have hbr : bad ∈ rest := by
        rcases List.mem_cons.mp hmem with rfl | h
        · rw [stepBom_root_none subject st bad hbad] at hsx
          cases hsx
        · exact h
      obtain ⟨e, he⟩ := IH hbr st2
      exact ⟨e, by rw [processBoms, hsx]; exact he⟩

theorem append_colon_ne_empty (s t : String) : s ++ ":" ++ t ≠ "" := by
  intro h
  have hl := congrArg String.length h
  rw [String.length_append, String.length_append] at hl
  have h1 : String.length ":" = 1 := rfl
  have h0 : String.length "" = 0 := rfl
  omega

theorem colon_split (a : List Char) : ∀ (c b d : List Char), (':' : Char) ∉ a →
    (':' : Char) ∉ c → a ++ ':' :: b = c ++ ':' :: d → a = c ∧ b = d := by
  induction a with
  | nil =>
    intro c b d _ hc h
    cases c with
    | nil =>
      simp at h
      exact ⟨rfl, h⟩
    | cons y ys =>
      simp at h
      rw [h.1] at hc
      simp at hc
  | cons x xs IH =>
    intro c b d ha hc h
    cases c with
    | nil =>
      simp at h
      rw [h.1] at ha
      simp at ha
    | cons y ys =>
      simp at h
      obtain ⟨hxy, h2⟩ := h
      obtain ⟨hae, hbd⟩ := IH ys b d (fun hmem => ha (List.mem_cons_of_mem _ hmem))
        (fun hmem => hc (List.mem_cons_of_mem _ hmem)) h2
      exact ⟨by rw [hxy, hae], hbd⟩

theorem data_colon_append (s t : String) :
    (s ++ ":" ++ t).data = s.data ++ ':' :: t.data := by
  rw [String.data_append, String.data_append, List.append_assoc]
  have hc : (":" : String).data = [':'] := rfl
  rw [hc]
  rfl

theorem topRefVal_inj (ns1 r1 ns2 r2 : String)
    (h1 : (':' : Char) ∉ ns1.data) (h3 : (':' : Char) ∉ ns2.data)
    (hne : ns1 ≠ ns2) : topRefVal ns1 r1 ≠ topRefVal ns2 r2 := by
  unfold topRefVal
  split <;> split
  · exact hne
  · intro h
    apply h1
    rw [h, data_colon_append]
    exact List.mem_append_right _ (List.mem_cons_self _ _)
  · intro h
    apply h3
    rw [← h, data_colon_append]
    exact List.mem_append_right _ (List.mem_cons_self _ _)
  · intro h
    have hd := congrArg String.data h
    rw [data_colon_append, data_colon_append] at hd
    obtain ⟨he, _⟩ := colon_split ns1.data ns2.data r1.data r2.data h1 h3 hd
    exact hne (String.ext he)

theorem withBOMRef_bomRef (c : Component) (r : String) :
    (c.withBOMRef r).bomRef = r := by
  cases c; rfl

theorem absorbRoot_bomRef (root : Component) (b : BOM) :
    (absorbRoot root b).bomRef = root.bomRef := by
  cases root; rfl

theorem nsTree_bomRef (ns : String) (c : Component) (hns : ns ≠ "") :
    (namespaceComponentBOMRefs ns c).bomRef =
      namespacedBOMRefWithNamespace ns c.bomRef := by
  cases c
  simp [namespaceComponentBOMRefs, hns, mapRefsC, Component.bomRef]

theorem docTop_ref (b : BOM) :
    (docTop b).bomRef = topRefVal (docNs b) ((theRoot b).bomRef) := by
  have hns : docNs b ≠ "" := nsOf_ne_empty (theRoot b)
  have href : (namespaceComponentBOMRefs (docNs b) (absorbRoot (theRoot b) b)).bomRef =
      namespacedBOMRefWithNamespace (docNs b) (theRoot b).bomRef := by
    rw [nsTree_bomRef _ _ hns, absorbRoot_bomRef]
  unfold docTop
  dsimp only
  by_cases hr : (theRoot b).bomRef = ""
  · have h0 : (namespaceComponentBOMRefs (docNs b)
        (absorbRoot (theRoot b) b)).bomRef = "" := by
      rw [href]; simp [namespacedBOMRefWithNamespace, hr]
    rw [if_pos h0, withBOMRef_bomRef]
    simp [topRefVal, hr]
  · have h0 : (namespaceComponentBOMRefs (docNs b)
        (absorbRoot (theRoot b) b)).bomRef =
        docNs b ++ ":" ++ (theRoot b).bomRef := by
      rw [href]; simp [namespacedBOMRefWithNamespace, hr, hns]
    rw [if_neg (by rw [h0]; exact append_colon_ne_empty _ _), h0]
    simp [topRefVal, hr]

theorem emptyToNone_getD {α : Type} (l : List α) : (emptyToNone l).getD [] = l := by
  unfold emptyToNone
  split
  · rename_i h
    simp [List.isEmpty_iff.mp h]
  · rfl

theorem flatMap_nil_of {α β : Type} (l : List α) (f : α → List β)
    (h : ∀ a ∈ l, f a = []) : l.flatMap f = [] := by
  induction l with
  | nil => rfl
  | cons x xs IH =>
    rw [List.flatMap_cons, h x (by simp), IH (fun a ha => h a (by simp [ha]))]
    rfl

/-- C2 counterexample: merging a document whose root namespace is lib@1.0
under the subject app at 1.0 yields a vulnerability whose reference id is
prefixed with the subject namespace app@1.0, not the document namespace
lib@1.0, and whose affects target is replaced by app@1.0; the claim predicts
lib@1.0:v and lib@1.0. -/
theorem c2_counterexample :
    (CycloneDXMerge c2opts).map BOM.vulnerabilities =
      .ok (some [{ bomRef := "app@1.0:v", affects := some [{ ref := "app@1.0" }] }]) ∧
    docNs c2doc = "lib@1.0" ∧
    ("app@1.0:v" : String) ≠ "lib@1.0:v" ∧ ("app@1.0" : String) ≠ "lib@1.0" := by
  refine ⟨rfl, by decide, by decide, by decide⟩

/-- C2 (amended): in a merge with a subject, every input vulnerability is
carried to the result with its reference id prefixed by the namespace of the
result subject component - not the per-document namespace - and every
affects target replaced by that subject namespace string; the vulnerability
list is the concatenation of these rewrites in document order, absent when
empty. -/
theorem c2_vulnerability_namespace (opts : CycloneDxMergeOptions)
    (hn : opts.name ≠ "") (hv : opts.version ≠ "")
    (hroots : ∀ b ∈ opts.boms, (rootOf b).isSome) :
    ∃ res, CycloneDXMerge opts = .ok res ∧
      res.vulnerabilities = emptyToNone (opts.boms.flatMap
        fun b => vulnContribution (nsOf (subjectFor opts)) b) := by
  obtain ⟨st', hok⟩ :=
    processBoms_ok_of_roots (some (subjectFixed opts)) opts.boms hroots MState.init
  refine ⟨_, CycloneDXMerge_eq_ok opts st' hn hv hok, ?_⟩
  obtain ⟨-, -, -, h4, -, -, -, -, -⟩ := processBoms_fields _ _ _ _ hok
  have hns : nsOf (subjectFixed opts) = nsOf (subjectFor opts) :=
    nsOf_withBOMRef _ _
  simp [buildResult, h4, MState.init, hns]

/-- C2 witness: the amended theorem applied to the concrete merge of c2doc,
whose subject namespace is app@1.0. -/
theorem c2_vulnerability_namespace_witness :
    (∃ res, CycloneDXMerge c2opts = .ok res ∧
      res.vulnerabilities = emptyToNone (c2opts.boms.flatMap
        fun b => vulnContribution (nsOf (subjectFor c2opts)) b)) ∧
    nsOf (subjectFor c2opts) = "app@1.0" :=
  ⟨c2_vulnerability_namespace c2opts (by decide) (by decide) (by decide),
   by decide⟩

/-- C3 counterexample: a document declaring one tool component with
reference id t1 and nested sub-component n1 produces a result tool list with
two entries: the legacy copy keeps the top-level id t1 but its nested ref is
rewritten to lib@1.0:n1 through the shared nested storage, and the second
copy is fully namespaced as lib@1.0:t1; the tool service is namespaced as
well.  The claim predicts a single entry with unmodified ids and no
namespacing. -/
theorem c3_counterexample :
    (CycloneDXMerge c3opts).map
        (fun res => (res.metadata.bind Metadata.tools).map
          fun t => (t.components.map (List.map fun c =>
            (c.bomRef, c.components.map (List.map Component.bomRef))),
            t.services)) =
      .ok (some (some [("t1", some ["lib@1.0:n1"]),
          ("lib@1.0:t1", some ["lib@1.0:n1"])],
        some [{ bomRef := "lib@1.0:s1", name := "svc" }])) := by
  rfl

/-- C3 (amended): the result tool-component list is, per document in input
order, the document tool components appended with unmodified top-level
reference ids but namespaced subtrees (the legacy append shares the nested
component storage that the namespacing traversal rewrites in place),
followed by a fully namespaced copy of each tool component whose namespaced
reference id is not already present - so a tool with a non-empty id appears
twice and never with an entirely unmodified, un-namespaced entry once it has
sub-components; tool services are appended with namespaced reference ids,
deduplicated by reference id first-seen-wins; the empty tool-component list
is cleaned to absent. -/
theorem c3_tools_union (opts : CycloneDxMergeOptions)
    (hn : opts.name ≠ "") (hv : opts.version ≠ "")
    (hroots : ∀ b ∈ opts.boms, (rootOf b).isSome) :
    ∃ res, CycloneDXMerge opts = .ok res ∧
      res.metadata = some
        { component := some (subjectFixed opts)
          tools := some
            { components := cleanupTools (toolsComponentsSpec opts.boms)
              services := toolsServicesSpec opts.boms } } := by
  obtain ⟨st', hok⟩ :=
    processBoms_ok_of_roots (some (subjectFixed opts)) opts.boms hroots MState.init
  refine ⟨_, CycloneDXMerge_eq_ok opts st' hn hv hok, ?_⟩
  obtain ⟨-, -, -, -, -, -, -, h8, h9⟩ := processBoms_fields _ _ _ _ hok
  simp only [Option.isSome_some, if_true] at h8 h9
  have h8b : st'.toolsComponents = toolsComponentsSpec opts.boms := h8
  have h9b : st'.toolsServices = toolsServicesSpec opts.boms := h9
  simp [buildResult, h8b, h9b, cleanupTools]
  cases toolsComponentsSpec opts.boms with
  | none => simp
  | some l => cases hl : l.isEmpty <;> simp [hl]

/-- C3 witness: the amended theorem applied to the concrete merge of c3doc. -/
theorem c3_tools_union_witness :
    (∃ res, CycloneDXMerge c3opts = .ok res ∧
      res.metadata = some
        { component := some (subjectFixed c3opts)
          tools := some
            { components := cleanupTools (toolsComponentsSpec c3opts.boms)
              services := toolsServicesSpec c3opts.boms } }) ∧
    (toolsComponentsSpec c3opts.boms).map (List.map Component.bomRef) =
      some ["t1", "lib@1.0:t1"] :=
  ⟨c3_tools_union c3opts (by decide) (by decide) (by decide), by rfl⟩

/-- C4 counterexample: the roots of c4docA and c4docB carry distinct
identity tuples - group a, name b versus group empty, name a.b - yet the
merged document contains two top-level components with the same reference
id a.b@1. -/
theorem c4_counterexample :
    (CycloneDXMerge c4opts).map (fun res => res.components.map (List.map Component.bomRef)) =
      .ok (some ["a.b@1", "a.b@1"]) ∧
    ((theRoot c4docA).group, (theRoot c4docA).name, (theRoot c4docA).version) ≠
      ((theRoot c4docB).group, (theRoot c4docB).name, (theRoot c4docB).version) := by
  refine ⟨rfl, by decide⟩

/-- C4 (amended): the merged document contains no two top-level components
with the same reference id after namespacing, provided the input root
components have pairwise distinct namespace strings and no namespace
contains a colon. -/
theorem c4_unique_refs (opts : CycloneDxMergeOptions)
    (hn : opts.name ≠ "") (hv : opts.version ≠ "")
    (hroots : ∀ b ∈ opts.boms, (rootOf b).isSome)
    (hns : opts.boms.Pairwise fun b1 b2 => docNs b1 ≠ docNs b2)
    (hcolon : ∀ b ∈ opts.boms, (':' : Char) ∉ (docNs b).data) :
    ∃ res, CycloneDXMerge opts = .ok res ∧
      ((res.components.getD []).map Component.bomRef).Nodup := by
  obtain ⟨st', hok⟩ :=
    processBoms_ok_of_roots (some (subjectFixed opts)) opts.boms hroots MState.init
  refine ⟨_, CycloneDXMerge_eq_ok opts st' hn hv hok, ?_⟩
  obtain ⟨h1, -, -, -, -, -, -, -, -⟩ := processBoms_fields _ _ _ _ hok
  have hcomp : ({ buildResult (some (subjectFixed opts)) st' with
      version := 1 } : BOM).components = emptyToNone (opts.boms.map docTop) := by
    simp [buildResult, h1, MState.init]
  rw [hcomp, emptyToNone_getD, List.map_map]
  refine List.pairwise_map.mpr (hns.imp_of_mem ?_)
  intro b1 b2 hm1 hm2 hR
  show (docTop b1).bomRef ≠ (docTop b2).bomRef
  rw [docTop_ref, docTop_ref]
  exact topRefVal_inj _ _ _ _ (hcolon b1 hm1) (hcolon b2 hm2) hR

/-- C4 witness: the amended theorem applied to two documents with the
distinct colon-free namespaces lib@1.0 and lib@2.0. -/
theorem c4_unique_refs_witness :
    ∃ res, CycloneDXMerge c4wopts = .ok res ∧
      ((res.components.getD []).map Component.bomRef).Nodup :=
  c4_unique_refs c4wopts (by decide) (by decide) (by decide)
    (by decide) (by decide)

/-- C5: for every successful merge, the result dependency list is the
namespaced per-document dependencies followed by one final entry mapping
the subject reference id - the subject namespace - to exactly the list of
namespaced input-document root reference ids, one per input document, in
input order. -/
theorem c5_dependency_closure (opts : CycloneDxMergeOptions)
    (hn : opts.name ≠ "") (hv : opts.version ≠ "")
    (hroots : ∀ b ∈ opts.boms, (rootOf b).isSome) :
    ∃ res, CycloneDXMerge opts = .ok res ∧
      res.dependencies = some (opts.boms.flatMap depContribution ++
        [{ ref := nsOf (subjectFor opts)
           dependencies := some (opts.boms.map fun b => (docTop b).bomRef) }]) := by
  obtain ⟨st', hok⟩ :=
    processBoms_ok_of_roots (some (subjectFixed opts)) opts.boms hroots MState.init
  refine ⟨_, CycloneDXMerge_eq_ok opts st' hn hv hok, ?_⟩
  obtain ⟨-, h2, h3, -, -, -, -, -, -⟩ := processBoms_fields _ _ _ _ hok
  have href : (subjectFixed opts).bomRef = nsOf (subjectFor opts) :=
    withBOMRef_bomRef _ _
  simp [buildResult, h2, h3, MState.init, href,
        emptyToNone_of_ne_nil (by simp : (opts.boms.flatMap depContribution ++
          [({ ref := nsOf (subjectFor opts)
              dependencies := some (opts.boms.map fun b => (docTop b).bomRef) } :
            Dependency)]) ≠ [])]

/-- C5 witness: the dependency closure of the concrete one-document merge,
whose final entry maps app@1.0 to the single root reference lib@1.0. -/
theorem c5_dependency_closure_witness :
    (∃ res, CycloneDXMerge c7opts = .ok res ∧
      res.dependencies = some (c7opts.boms.flatMap depContribution ++
        [{ ref := nsOf (subjectFor c7opts)
           dependencies := some (c7opts.boms.map fun b => (docTop b).bomRef) }])) ∧
    (c7opts.boms.map fun b => (docTop b).bomRef) = ["lib@1.0"] ∧
    nsOf (subjectFor c7opts) = "app@1.0" :=
  ⟨c5_dependency_closure c7opts (by decide) (by decide) (by decide),
   by decide, by decide⟩

/-- C6: CycloneDXMerge fails exactly when the subject name or version is
empty or some input document lacks a root metadata component; an empty name
or version yields the missing-subject-identity error, and otherwise the
merge aborts on the first document without a root metadata component,
naming that document's serial (or unknown), with no other failure mode. -/
theorem c6_error_characterization (opts : CycloneDxMergeOptions) :
    ((∃ e, CycloneDXMerge opts = .error e) ↔
      (opts.name = "" ∨ opts.version = "" ∨ ∃ b ∈ opts.boms, rootOf b = none)) ∧
    ((opts.name = "" ∨ opts.version = "") →
      CycloneDXMerge opts = .error .missingSubjectIdentity) ∧
    (∀ pre bad post, opts.name ≠ "" → opts.version ≠ "" →
      opts.boms = pre ++ bad :: post → (∀ x ∈ pre, (rootOf x).isSome) →
      rootOf bad = none →
      CycloneDXMerge opts = .error (.missingMetadataComponent (serialOf bad))) := by
  have hsub : (opts.name = "" ∨ opts.version = "") →
      CycloneDXMerge opts = .error .missingSubjectIdentity := by
    intro h
    rw [CycloneDXMerge, if_pos h]
  refine ⟨⟨?_, ?_⟩, hsub, ?_⟩
  · rintro ⟨e, he⟩
    by_contra hcon
    push_neg at hcon
    obtain ⟨hn, hv, hall⟩ := hcon
    have hroots : ∀ b ∈ opts.boms, (rootOf b).isSome := by
      intro b hb
      cases hro : rootOf b with
      | none => exact absurd hro (hall b hb)
      | some root => rfl
    obtain ⟨st', hok⟩ :=
      processBoms_ok_of_roots (some (subjectFixed opts)) opts.boms hroots MState.init
    rw [CycloneDXMerge_eq_ok opts st' hn hv hok] at he
    cases he
  · intro h
    rcases h with h | h | ⟨bad, hmem, hbad⟩
    · exact ⟨_, hsub (.inl h)⟩
    · exact ⟨_, hsub (.inr h)⟩
    · by_cases hnv : opts.name = "" ∨ opts.version = ""
      · exact ⟨_, hsub hnv⟩
      · push_neg at hnv
        obtain ⟨e, he⟩ :=
          processBoms_error_of_mem (some (subjectFixed opts)) opts.boms bad
            hmem hbad MState.init
        refine ⟨e, ?_⟩
        rw [CycloneDXMerge, if_neg (by simp [hnv.1, hnv.2])]
        rw [HierarchicalMerge]
        have h1 : Option.map fixSubject (some (subjectFor opts)) =
            some (subjectFixed opts) := by simp [fixSubject_subjectFor]
        rw [h1, he]
  · intro pre bad post hn hv hsplit hpre hbad
    rw [CycloneDXMerge, if_neg (by simp [hn, hv])]
    rw [HierarchicalMerge]
    have h1 : Option.map fixSubject (some (subjectFor opts)) =
        some (subjectFixed opts) := by simp [fixSubject_subjectFor]
    rw [h1, hsplit,
        processBoms_first_error (some (subjectFixed opts)) pre bad post hpre hbad
          MState.init]

/-- C6 witness: merging a valid document followed by a document without
metadata aborts with the missing-metadata error naming the serial unknown. -/
theorem c6_error_characterization_witness :
    CycloneDXMerge c6opts = .error (.missingMetadataComponent "unknown") :=
  (c6_error_characterization c6opts).2.2 [mkDoc libRoot] emptyBOM []
    (by decide) (by decide) rfl (by decide) rfl

/-- C7 counterexample: a merge of one document carrying nothing but its root
nulls out vulnerabilities, compositions and services, but leaves the
definitions standards list and every declarations list present and empty,
contradicting the claim that every empty top-level collection is absent. -/
theorem c7_counterexample :
    (CycloneDXMerge c7opts).map
        (fun res => (res.vulnerabilities, res.compositions, res.services,
          res.definitions.map Definitions.standards,
          (res.declarations.bind Declarations.assessors))) =
      .ok (none, none, none, some (some []), some []) := by
  rfl

/-- C7 (amended): the cleanup nulls exactly the tools components,
components, services, external references, dependencies, compositions and
vulnerabilities; merging documents with none of vulnerabilities,
compositions or services yields absent for those three fields, while when no
input document carries declarations or definitions the declarations block
and the definitions standards list remain present with empty lists, not
absent. -/
theorem c7_empty_collections (opts : CycloneDxMergeOptions)
    (hn : opts.name ≠ "") (hv : opts.version ≠ "")
    (hroots : ∀ b ∈ opts.boms, (rootOf b).isSome)
    (hnov : ∀ b ∈ opts.boms, b.vulnerabilities = none ∧ b.compositions = none ∧
      b.services = none)
    (hnod : ∀ b ∈ opts.boms, b.definitions = none)
    (hnodecl : ∀ b ∈ opts.boms, b.declarations = none) :
    ∃ res, CycloneDXMerge opts = .ok res ∧
      res.vulnerabilities = none ∧ res.compositions = none ∧
      res.services = none ∧ res.definitions = some { standards := some [] } ∧
      res.declarations = some
        { assessors := some [], attestations := some [], claims := some []
          evidence := some []
          targets := some
            { organizations := some [], components := some []
              services := some [] } } := by
  obtain ⟨st', hok⟩ :=
    processBoms_ok_of_roots (some (subjectFixed opts)) opts.boms hroots MState.init
  refine ⟨_, CycloneDXMerge_eq_ok opts st' hn hv hok, ?_, ?_, ?_, ?_, ?_⟩
  all_goals obtain ⟨-, -, -, h4, h5, h6, h7, -, -⟩ := processBoms_fields _ _ _ _ hok
  · have hz : opts.boms.flatMap
        (fun b => vulnContribution (nsOf (subjectFixed opts)) b) = [] := by
      apply flatMap_nil_of
      intro b hb
      simp [vulnContribution, (hnov b hb).1, namespaceVulnerabilitiesRefs]
    simp only [Option.some.injEq] at h4
    simp [buildResult, h4, MState.init, hz, emptyToNone]
  · have hz : opts.boms.flatMap compContribution = [] := by
      apply flatMap_nil_of
      intro b hb
      simp [compContribution, (hnov b hb).2.2, namespaceCompositions,
            (hnov b hb).2.1]
    simp [buildResult, h6, MState.init, hz, emptyToNone]
  · have hz : opts.boms.flatMap svcContribution = [] := by
      apply flatMap_nil_of
      intro b hb
      simp [svcContribution, (hnov b hb).2.2]
    simp [buildResult, h5, MState.init, hz, emptyToNone]
  · have hz : opts.boms.flatMap stdContribution = [] := by
      apply flatMap_nil_of
      intro b hb
      simp [stdContribution, hnod b hb]
    simp [buildResult, h7, MState.init, hz]
  · obtain ⟨i1, i2, i3, i4, i5, i6, i7⟩ :=
      processBoms_decl_fields _ _ hnodecl _ _ hok
    simp [buildResult, i1, i2, i3, i4, i5, i6, i7, MState.init]

/-- C7 witness: the amended theorem applied to the concrete one-document
merge. -/
theorem c7_empty_collections_witness :
    ∃ res, CycloneDXMerge c7opts = .ok res ∧
      res.vulnerabilities = none ∧ res.compositions = none ∧
      res.services = none ∧ res.definitions = some { standards := some [] } ∧
      res.declarations = some
        { assessors := some [], attestations := some [], claims := some []
          evidence := some []
          targets := some
            { organizations := some [], components := some []
              services := some [] } } :=
  c7_empty_collections c7opts (by decide) (by decide) (by decide)
    (by decide) (by decide)
    (by intro b hb; simp [c7opts] at hb; subst hb; rfl)

/-- C8: merging a single document under a subject equal to its own root
component identity yields as result components exactly one tree: the input
root with the flat component list absorbed as sub-components, every bom-ref
in the tree rewritten through the document namespace exactly once by the
recursive traversal, and the root ref set to the namespace itself when it
was empty. -/
theorem c8_single_doc (b : BOM) (root : Component) (hr : rootOf b = some root)
    (hn : root.name ≠ "") (hv : root.version ≠ "") :
    ∃ res, CycloneDXMerge
        { boms := [b], group := root.group, name := root.name,
          version := root.version } = .ok res ∧
      res.components = some
        [(fun c => if c.bomRef = "" then c.withBOMRef (nsOf root) else c)
          (mapRefsC (namespacedBOMRefWithNamespace (nsOf root))
            (absorbRoot root b))] := by
  obtain ⟨st', hok⟩ :=
    processBoms_ok_of_roots
      (some (subjectFixed
        { boms := [b], group := root.group, name := root.name,
          version := root.version })) [b]
      (by intro x hx; simp at hx; rw [hx, hr]; rfl) MState.init
  refine ⟨_, CycloneDXMerge_eq_ok _ st' hn hv hok, ?_⟩
  obtain ⟨h1, -, -, -, -, -, -, -, -⟩ := processBoms_fields _ _ _ _ hok
  have htop : docTop b =
      (fun c => if c.bomRef = "" then c.withBOMRef (nsOf root) else c)
        (mapRefsC (namespacedBOMRefWithNamespace (nsOf root))
          (absorbRoot root b)) := by
    have hroot : theRoot b = root := by simp [theRoot, hr]
    have hdocns : docNs b = nsOf root := by rw [docNs, hroot]
    unfold docTop
    dsimp only
    rw [hdocns, hroot, namespaceComponentBOMRefs, if_neg (nsOf_ne_empty root)]
  simp [buildResult, h1, MState.init, emptyToNone, htop]

/-- C8 witness: the concrete single-document merge of c8doc, with root ref
root-ref and nested and flat components xr and yr, all rewritten once by
lib@1.0. -/
theorem c8_single_doc_witness :
    (∃ res, CycloneDXMerge c8opts = .ok res ∧
      res.components = some
        [(fun c => if c.bomRef = "" then c.withBOMRef (nsOf c8root) else c)
          (mapRefsC (namespacedBOMRefWithNamespace (nsOf c8root))
            (absorbRoot c8root c8doc))]) ∧
    (CycloneDXMerge c8opts).map
        (fun res => res.components.map (List.map
          fun c => (c.bomRef, c.components.map (List.map Component.bomRef)))) =
      .ok (some [("lib@1.0:root-ref", some ["lib@1.0:xr", "lib@1.0:yr"])]) :=
  ⟨c8_single_doc c8doc c8root rfl (by decide) (by decide), rfl⟩

/-- C10: merging an empty document list under a subject with non-empty name
and version succeeds, the components field is absent, and the dependency
list holds exactly one entry mapping the subject reference id to an empty
dependency list. -/
theorem c10_empty_merge (opts : CycloneDxMergeOptions)
    (hb : opts.boms = []) (hn : opts.name ≠ "") (hv : opts.version ≠ "") :
    ∃ res, CycloneDXMerge opts = .ok res ∧
      res.components = none ∧
      res.dependencies =
        some [{ ref := nsOf (subjectFor opts), dependencies := some [] }] := by
  have hok : processBoms (some (subjectFixed opts)) opts.boms MState.init =
      .ok MState.init := by rw [hb]; rfl
  refine ⟨_, CycloneDXMerge_eq_ok opts MState.init hn hv hok, ?_, ?_⟩
  · simp [buildResult, MState.init, emptyToNone]
  · simp [buildResult, MState.init, emptyToNone, withBOMRef_bomRef, subjectFixed]

/-- C10 witness: the empty merge under the subject app at 1.0, whose single
dependency entry maps app@1.0 to the empty list. -/
theorem c10_empty_merge_witness :
    (∃ res, CycloneDXMerge c10opts = .ok res ∧
      res.components = none ∧
      res.dependencies =
        some [{ ref := nsOf (subjectFor c10opts), dependencies := some [] }]) ∧
    nsOf (subjectFor c10opts) = "app@1.0" :=
  ⟨c10_empty_merge c10opts rfl (by decide) (by decide), by decide⟩

/-- C1 counterexample: on a repository whose graph has a cycle below the
root, the root node R gets no merged result, yet processAllComponents does
not return the empty result: its fallback returns the document produced for
the non-root node C. -/
theorem c1_counterexample :
    (processAllComponents exRepo exMerge "R" "1" 16).1 = some ["pC"] ∧
    lookupA (processAllComponents exRepo exMerge "R" "1" 16).2.2.resultPath
      (nodeId "R" "1") = none ∧
    lookupA (processAllComponents exRepo exMerge "R" "1" 16).2.2.resultPath
      (nodeId "C" "1") = some "pC" := by
  refine ⟨by decide, by decide, by decide⟩

/-- C1 (amended): processAllComponents returns the root node's merged
document whenever one was recorded; when the root has no recorded result,
the fallback returns the first recorded result of any node - possibly a
non-root node's document - and only when no node recorded any result is the
outcome empty. -/
theorem c1_root_result (repo : String × String → Option OrchNode)
    (m : String → List String → Option String) (n v : String) (fuel : Nat)
    (hm : ∀ nid files, m nid files ≠ some "") :
    (∀ p, lookupA (processAllComponents repo m n v fuel).2.2.resultPath
        (nodeId n v) = some p →
      (processAllComponents repo m n v fuel).1 = some [p]) ∧
    (lookupA (processAllComponents repo m n v fuel).2.2.resultPath
        (nodeId n v) = none →
      (processAllComponents repo m n v fuel).1 =
        ((processAllComponents repo m n v fuel).2.2.resultPath.head?.map
          (·.2)).map fun p => [p]) := by
  unfold processAllComponents
  dsimp only
  by_cases hempty : (bfs repo fuel [(n, v)] Graph.init).allNodes.isEmpty = true
  · simp only [hempty, if_true]
    constructor
    · intro p hp
      simp [St2.init, lookupA] at hp
    · intro _
      simp [St2.init]
  · simp only [hempty, if_false]
    exact selectResult_spec _ _ (runPhase2_vals _ m hm)

/-- C1 witness: the amended theorem applied to the cyclic example, where the
root has no recorded result and the fallback yields pC. -/
theorem c1_root_result_witness :
    lookupA (processAllComponents exRepo exMerge "R" "1" 16).2.2.resultPath
      (nodeId "R" "1") = none ∧
    (processAllComponents exRepo exMerge "R" "1" 16).1 = some ["pC"] :=
  ⟨by decide,
   ((c1_root_result exRepo exMerge "R" "1" 16
      (by intro nid files; simp [exMerge])).2 (by decide)).trans (by decide)⟩

/-- C9: for every acyclic discovery graph - acyclicity given by a rank
function decreasing from parents to children - whose parent and child
relations are converse, duplicate-free and closed over the discovered
nodes, the bottom-up phase finalizes every discovered node exactly once:
each node appears in the finalization log, the log has no duplicates (so
a child shared by several parents is merged once, with no recomputation),
and the log is in strict post-order: whenever a node appears, every one of
its children appears strictly before it, so a node's merge only runs after
every child's result exists. -/
theorem c9_postorder (g : Graph) (m : String → List String → Option String)
    (hg : GraphOK g) (hall : g.allNodes.Nodup)
    (hclosed : ∀ n ∈ g.allNodes, ∀ c ∈ g.childrenOf n, c ∈ g.allNodes)
    (rank : String → Nat)
    (hrank : ∀ n ∈ g.allNodes, ∀ c ∈ g.childrenOf n, rank c < rank n) :
    (runPhase2 g m).processed.Nodup ∧
    (∀ n ∈ g.allNodes, n ∈ (runPhase2 g m).processed) ∧
    ∀ pre n post, (runPhase2 g m).processed = pre ++ n :: post →
      ∀ c ∈ g.childrenOf n, c ∈ pre :=
  ⟨(runPhase2_post g m hg).1,
   runPhase2_complete g m hg hall hclosed rank hrank,
   (runPhase2_post g m hg).2⟩

/-- C9 witness: the diamond graph discovered from diaRepo satisfies the
structural hypotheses, D is finalized exactly once, and its single result
pD is reused in the input files of both B and C. -/
theorem c9_postorder_witness :
    GraphOK diaG ∧
    (runPhase2 diaG diaMerge).processed.Nodup ∧
    (nodeId "D" "1") ∈ (runPhase2 diaG diaMerge).processed ∧
    (runPhase2 diaG diaMerge).processed.count (nodeId "D" "1") = 1 ∧
    lookupA (runPhase2 diaG diaMerge).resultPath (nodeId "D" "1") = some "pD" ∧
    (runPhase2 diaG diaMerge).filesLog =
      [(nodeId "D" "1", ["pD"]), (nodeId "B" "1", ["pB", "pD"]),
       (nodeId "C" "1", ["pC", "pD"]),
       (nodeId "A" "1", ["pA", "m-B:1", "m-C:1"])] :=
  ⟨by decide,
   (c9_postorder diaG diaMerge (by decide) (by decide) (by decide) diaRank
     (by decide)).1,
   (c9_postorder diaG diaMerge (by decide) (by decide) (by decide) diaRank
     (by decide)).2.1 (nodeId "D" "1") (by decide),
   by decide, by decide, by decide⟩

end OcmSbom
